import Mathlib

/-!
# erg-task-dispatcher: a verification development for `dispatcher.go`

The program is a fan-out/fan-in prime finder built from three actors:
`TaskDispatcher` splits a range into sub-ranges and spawns one `Worker` per
sub-range, each `Worker` runs `findPrimesInRange` and sends a `PrimesFound`
message to the `ResultsCollector`, which counts the results it has received.

Modelling conventions.

* Go's `int` is the 64-bit two's-complement integer.  A value is an `Int`
  and every operation that can leave the range `[MinInt64, MaxInt64]` is
  followed by `wrap`, the reduction modulo `2^64` into that range: the
  arithmetic of the dispatcher (lines 45-47) and the counter `num++` of
  `findPrimesInRange`.  The arithmetic of `isPrime` stays below `sqrt n + 8` and
  the collector's counter grows by one per message, so neither can wrap.
  Go's `/` and `%` truncate toward zero, so they are `Int.tdiv` and
  `Int.tmod`; a zero divisor is a run-time panic (`goDiv`).
* `int(math.Sqrt(float64(n)))` is the one floating-point expression of the
  program.  It is modelled by the exact integer floor of the square root
  (`sqrtFloor`, proved equal to `Nat.sqrt`).
* An actor's `HandleMessage` is a pure function from the actor's state and the
  message to the new state, the list of effects it performed and the value it
  returned.  The results of `Spawn` and `Send`, which the runtime decides, are
  read from a `Runtime` record.
* A Go `for` loop is a structurally recursive function over a fuel argument or
  over the list of loop indices; the caller supplies fuel that is proved to be
  enough.  The loop of `findPrimesInRange` does not terminate when `end` is
  `MaxInt64`: its model returns `none` when the fuel runs out, and `none` is
  proved to be the result for every amount of fuel in that case.
-/

namespace ErgDispatcher

/-! ## Messages and values -/

/-- The message `CalculatePrimes{RangeStart, RangeEnd}`. -/
structure CalculatePrimes where
  RangeStart : Int
  RangeEnd : Int
deriving DecidableEq, Repr

/-- The message `PrimesFound{Primes}`. -/
structure PrimesFound where
  Primes : List Int
deriving DecidableEq, Repr

/-- A value of Go's type `any`, as far as the type switches and type assertions
of the program tell values apart: an `int`, one of the two message structs, or
a value of some other dynamic type. -/
inductive Any where
  | int (v : Int)
  | CalculatePrimes (v : CalculatePrimes)
  | PrimesFound (v : PrimesFound)
  | other (tag : Nat)
deriving DecidableEq, Repr

/-- A process identifier (`gen.PID`). -/
abbrev PID := Nat

/-- The recipient of a `Send`: a process identifier or a registered name
(`gen.Atom`). -/
inductive Target where
  | pid (p : PID)
  | atom (name : String)
deriving DecidableEq, Repr

/-- What a handler does besides changing its own state. -/
inductive Effect where
  /-- `td.Spawn` returned this process identifier. -/
  | spawned (pid : PID)
  /-- A call of `Send(target, msg)`. -/
  | send (target : Target) (msg : Any)
  /-- The line `fmt.Printf("All results collected. Found the following primes: %v", primes)`. -/
  | printed (primes : List Int)
  /-- The line `Log().Error("Unknown message: %v", msg)`. -/
  | loggedUnknown (msg : Any)
  /-- A call of `log.Fatalf`, which ends the process. -/
  | logFatal
deriving DecidableEq, Repr

/-- How a handler invocation ends. -/
inductive Return where
  /-- The handler returned `nil`. -/
  | nil
  /-- The handler returned `gen.TerminateReasonNormal`. -/
  | terminateNormal
  /-- The process was ended by `log.Fatalf`. -/
  | exited
  /-- A run-time panic (integer division by zero). -/
  | panicked
  /-- The handler never returns: a loop of it does not terminate. -/
  | diverged
deriving DecidableEq, Repr

/-- The outcome of one handler invocation. -/
structure Handled (σ : Type) where
  state : σ
  effects : List Effect
  ret : Return

/-- The answers of the actor runtime during one handler invocation:
`spawn i` is the result of the `Spawn` call of loop iteration `i` (`none` when
it returns an error), `sendFails i` tells whether the `Send` call number `i`
returns an error. -/
structure Runtime where
  spawn : Nat → Option PID
  sendFails : Nat → Bool

/-! ## Go's `int` -/

/-- The smallest value of Go's 64-bit `int`, `-2^63`. -/
def MinInt64 : Int := -9223372036854775808

/-- The largest value of Go's 64-bit `int`, `2^63 - 1`. -/
def MaxInt64 : Int := 9223372036854775807

/-- Two's-complement wrap-around: the value of `[MinInt64, MaxInt64]` that is
congruent to `x` modulo `2^64`. -/
def wrap (x : Int) : Int :=
  (x + 9223372036854775808) % 18446744073709551616 - 9223372036854775808

/-! ## The primality test (`isPrime`, lines 106-125) -/

/-- Linear search for the floor of the square root: the largest `r` with
`r * r ≤ n`, found by counting up from `r`. -/
def sqrtFloorLoop (n : Nat) : Nat → Nat → Nat
  | 0, r => r
  | fuel + 1, r => if (r + 1) * (r + 1) ≤ n then sqrtFloorLoop n fuel (r + 1) else r

/-- The value of `int(math.Sqrt(float64(n)))` for `n ≥ 0`, read as the floor of
the square root. -/
def sqrtFloor (n : Nat) : Nat := sqrtFloorLoop n n 0

/-- The loop `for i := 5; i <= sqrtN; i += 6` of `isPrime`, started at `i`:
`false` as soon as `i` or `i + 2` divides `n`, `true` when the loop ends. -/
def isPrimeLoop (n sqrtN : Int) : Nat → Int → Bool
  | 0, _ => true
  | fuel + 1, i =>
    if i ≤ sqrtN then
      if n.tmod i = 0 ∨ n.tmod (i + 2) = 0 then false
      else isPrimeLoop n sqrtN fuel (i + 6)
    else true

/-- The function `isPrime`. -/
def isPrime (n : Int) : Bool :=
  if n ≤ 1 then false
  else if n ≤ 3 then true
  else if n.tmod 2 = 0 ∨ n.tmod 3 = 0 then false
  else
    let sqrtN : Int := (sqrtFloor n.toNat : Nat)
    isPrimeLoop n sqrtN sqrtN.toNat 5

/-! ## The worker (`findPrimesInRange`, `Worker.HandleMessage`) -/

/-- The loop `for num := start; num <= end; num++` of `findPrimesInRange`,
started at `num` with the slice `primes` built so far; `num++` wraps around.
Each test of the loop condition uses one unit of fuel; `none` means the fuel
ran out before the loop ended. -/
def findPrimesLoop (end_ : Int) : Nat → Int → List Int → Option (List Int)
  | 0, _, _ => none
  | fuel + 1, num, primes =>
    if num ≤ end_ then
      findPrimesLoop end_ fuel (wrap (num + 1)) (if isPrime num then primes ++ [num] else primes)
    else some primes

/-- The function `findPrimesInRange`: `some primes` when it returns `primes`,
`none` when its loop does not terminate.  The fuel is one more than the
distance from the normalised start to `end`, which is enough whenever any
amount is (`findPrimesInRange_fuel_enough`, `findPrimesInRange_eq_none`). -/
def findPrimesInRange (start end_ : Int) : Option (List Int) :=
  let start := if start < 2 then 2 else start
  findPrimesLoop end_ ((end_ + 1 - start).toNat + 1) start []

/-- The actor `Worker`. -/
structure Worker where
  RangeStart : Int
  RangeEnd : Int
deriving DecidableEq, Repr

/-- The method `Worker.HandleMessage`; `sendFailed` tells whether the `Send` to
the collector returns an error. -/
def Worker.HandleMessage (sendFailed : Bool) (w : Worker) (message : Any) : Handled Worker :=
  match message with
  | .CalculatePrimes msg =>
    match findPrimesInRange msg.RangeStart msg.RangeEnd with
    | none => ⟨w, [], .diverged⟩
    | some primes =>
      let sent := Effect.send (.atom "ResultsCollector") (.PrimesFound ⟨primes⟩)
      if sendFailed then ⟨w, [sent, .logFatal], .exited⟩
      else ⟨w, [sent], .terminateNormal⟩
  | msg => ⟨w, [.loggedUnknown msg], .nil⟩

/-! ## The dispatcher (`TaskDispatcher`) -/

/-- Go's integer division: truncation toward zero, a panic (`none`) when the
divisor is zero; the one quotient that leaves the range, `MinInt64 / -1`, wraps
around. -/
def goDiv (a b : Int) : Option Int :=
  if b = 0 then none else some (wrap (a.tdiv b))

/-- The actor `TaskDispatcher`. -/
structure TaskDispatcher where
  numberOfWorkers : Int
deriving DecidableEq, Repr

/-- The method `TaskDispatcher.Init`; `none` is the panic of the failed type
assertion `args[0].(int)`. -/
def TaskDispatcher.Init (td : TaskDispatcher) (args : List Any) : Option TaskDispatcher :=
  match args with
  | [] => some { td with numberOfWorkers := 4 }
  | .int v :: _ => some { td with numberOfWorkers := v }
  | _ :: _ => none

/-- Lines 45-47: the sub-range of the worker with loop index `i`, every
operation in Go's wrapping `int` arithmetic. -/
def workerRange (msg : CalculatePrimes) (numberOfWorkers : Int) (i : Int) :
    Option CalculatePrimes :=
  match goDiv (wrap (wrap (msg.RangeEnd - msg.RangeStart) + 1)) numberOfWorkers with
  | none => none
  | some rangeSize =>
    let workerRangeStart := wrap (msg.RangeStart + wrap (i * rangeSize))
    let workerRangeEnd := wrap (wrap (workerRangeStart + rangeSize) - 1)
    some ⟨workerRangeStart, workerRangeEnd⟩

/-- The loop `for i := range td.numberOfWorkers` over the remaining indices.
The result of `td.Send` is not assigned, so the `err` tested after it is still
the `nil` of the successful `Spawn`: `rt.sendFails` is never read and the
second `log.Fatalf` is never reached. -/
def dispatchLoop (rt : Runtime) (td : TaskDispatcher) (msg : CalculatePrimes) :
    List Nat → List Effect → List Effect × Return
  | [], effects => (effects, .nil)
  | i :: rest, effects =>
    match workerRange msg td.numberOfWorkers i with
    | none => (effects, .panicked)
    | some task =>
      match rt.spawn i with
      | none => (effects ++ [.logFatal], .exited)
      | some pid =>
        dispatchLoop rt td msg rest
          (effects ++ [.spawned pid, .send (.pid pid) (.CalculatePrimes task)])

/-- The method `TaskDispatcher.HandleMessage`. -/
def TaskDispatcher.HandleMessage (rt : Runtime) (td : TaskDispatcher) (message : Any) :
    Handled TaskDispatcher :=
  match message with
  | .CalculatePrimes msg =>
    let r := dispatchLoop rt td msg (List.range td.numberOfWorkers.toNat) []
    ⟨td, r.1, r.2⟩
  | msg => ⟨td, [.loggedUnknown msg], .nil⟩

/-! ## The collector (`ResultsCollector`) -/

/-- The actor `ResultsCollector`. -/
structure ResultsCollector where
  expectedNumberOfResults : Int
  numberOfResults : Int
  results : List Int
deriving DecidableEq, Repr

/-- The value `&ResultsCollector{}` the factory in `main` returns. -/
def ResultsCollector.zero : ResultsCollector := ⟨0, 0, []⟩

/-- The method `ResultsCollector.Init`; `none` is the panic of the failed type
assertion `args[0].(int)`. -/
def ResultsCollector.Init (rc : ResultsCollector) (args : List Any) : Option ResultsCollector :=
  match args with
  | [] => some { rc with expectedNumberOfResults := 4 }
  | .int v :: _ => some { rc with expectedNumberOfResults := v }
  | _ :: _ => none

/-- The method `ResultsCollector.HandleMessage`. -/
def ResultsCollector.HandleMessage (rc : ResultsCollector) (message : Any) :
    Handled ResultsCollector :=
  match message with
  | .PrimesFound msg =>
    let rc1 := { rc with results := rc.results ++ msg.Primes }
    let rc2 := { rc1 with numberOfResults := rc1.numberOfResults + 1 }
    if rc2.numberOfResults = rc2.expectedNumberOfResults then
      ⟨rc2, [.printed msg.Primes], .nil⟩
    else ⟨rc2, [], .nil⟩
  | msg => ⟨rc, [.loggedUnknown msg], .nil⟩

/-! ## Vocabulary of the properties -/

/-- A prime number in the words of the specification: at least 2 and without a
divisor strictly between 1 and itself. -/
def IsPrimeNumber (n : Int) : Prop :=
  2 ≤ n ∧ ∀ d : Int, 1 < d → d < n → ¬ d ∣ n

/-- The integers of a sub-range: `x` lies in the inclusive range of the task. -/
def CalculatePrimes.Contains (r : CalculatePrimes) (x : Int) : Prop :=
  r.RangeStart ≤ x ∧ x ≤ r.RangeEnd

instance (r : CalculatePrimes) (x : Int) : Decidable (r.Contains x) := by
  unfold CalculatePrimes.Contains
  exact inferInstance

/-- A value of Go's `int`: an integer of the 64-bit range. -/
def IsInt64 (x : Int) : Prop := MinInt64 ≤ x ∧ x ≤ MaxInt64

instance (x : Int) : Decidable (IsInt64 x) := by
  unfold IsInt64
  exact inferInstance

/-- No operation of lines 45-47 wraps around for the request `msg` and `k ≥ 1`
workers: the bounds are values of `int`, the size `end - start + 1` is
representable, and so is the end `start + size - 1` of the first sub-range
(which is `start - 1` when the sub-range size is 0). -/
def NoOverflow (msg : CalculatePrimes) (k : Int) : Prop :=
  IsInt64 msg.RangeStart ∧ IsInt64 msg.RangeEnd ∧
    IsInt64 (msg.RangeEnd - msg.RangeStart + 1) ∧
    MinInt64 ≤ msg.RangeStart + (msg.RangeEnd - msg.RangeStart + 1).tdiv k - 1

instance (msg : CalculatePrimes) (k : Int) : Decidable (NoOverflow msg k) := by
  unfold NoOverflow
  exact inferInstance

/-- The primes of `[max start 2, end]` in increasing order, as a filter of the
enumeration of that interval. -/
def primesBetween (start end_ : Int) : List Int :=
  ((List.range (end_ + 1 - max start 2).toNat).map
    (fun j : Nat => max start 2 + (j : Int))).filter (fun x => isPrime x)

/-- A runtime in which every `Spawn` and every `Send` succeeds; the process
spawned in iteration `i` gets the identifier `i`. -/
def reliableRuntime : Runtime := ⟨fun i => some i, fun _ => false⟩

/-- The task messages a handler passed to `Send`, each with the process it was
addressed to, in the order of the calls. -/
def sentTasks (effects : List Effect) : List (PID × CalculatePrimes) :=
  effects.filterMap fun e =>
    match e with
    | .send (.pid p) (.CalculatePrimes task) => some (p, task)
    | _ => none

/-- The processes spawned among the effects of a handler. -/
def spawnedPids (effects : List Effect) : List PID :=
  effects.filterMap fun e =>
    match e with
    | .spawned p => some p
    | _ => none

/-- The `PrimesFound` messages a handler passed to `Send` for the registered
name `ResultsCollector`, in the order of the calls. -/
def sentResults (effects : List Effect) : List PrimesFound :=
  effects.filterMap fun e =>
    match e with
    | .send (.atom name) (.PrimesFound found) =>
      if name = "ResultsCollector" then some found else none
    | _ => none

/-- The collector's state after it has handled the messages one at a time, in
the order of the list. -/
def ResultsCollector.after (rc : ResultsCollector) : List Any → ResultsCollector
  | [] => rc
  | m :: ms => ResultsCollector.after (rc.HandleMessage m).state ms

/-- The effects of each handler invocation when the collector handles the
messages one at a time, in the order of the list. -/
def ResultsCollector.trace (rc : ResultsCollector) : List Any → List (List Effect)
  | [] => []
  | m :: ms => (rc.HandleMessage m).effects :: ResultsCollector.trace (rc.HandleMessage m).state ms

/-- Whether an effect is the completion report printed by the collector. -/
def Effect.isReport : Effect → Bool
  | .printed _ => true
  | _ => false

/-- The number of handler invocations of a trace that emitted the completion
report. -/
def completions (trace : List (List Effect)) : Nat :=
  (trace.filter fun effects => effects.any Effect.isReport).length

/-- The number of `PrimesFound` messages in a sequence of messages. -/
def resultCount (msgs : List Any) : Nat :=
  (msgs.filter fun m =>
    match m with
    | .PrimesFound _ => true
    | _ => false).length

/-- The value `&TaskDispatcher{}` the factory `factoryTaskDispatcher` returns. -/
def TaskDispatcher.zero : TaskDispatcher := ⟨0⟩

/-- The value `&Worker{}` the dispatcher's spawn factory returns. -/
def Worker.zero : Worker := ⟨0, 0⟩

/-- The results the workers produce for the dispatched tasks, in the order of
the tasks: every task is handled by a new worker, whose message to the
collector is delivered (a worker that never returns sends none). -/
def workerResults (tasks : List CalculatePrimes) : List PrimesFound :=
  tasks.flatMap fun task =>
    sentResults (Worker.HandleMessage false Worker.zero (.CalculatePrimes task)).effects

/-- A runtime in which every `Spawn` succeeds and every `Send` returns an
error; the process spawned in iteration `i` gets the identifier `i`. -/
def failingSendRuntime : Runtime := ⟨fun i => some i, fun _ => true⟩

/-- The integer `x` is assigned to a worker: it lies in the sub-range of some
worker index below the worker count `k`. -/
def Covered (msg : CalculatePrimes) (k : Int) (x : Int) : Prop :=
  ∃ i : Nat, (i : Int) < k ∧ ∃ r, workerRange msg k i = some r ∧ r.Contains x

/-! # Lemmas and theorems -/

/-! ## Primality -/

theorem sqrtFloorLoop_eq (n : Nat) : ∀ (fuel r : Nat), r * r ≤ n → Nat.sqrt n ≤ r + fuel →
    sqrtFloorLoop n fuel r = Nat.sqrt n := by
  intro fuel
  induction fuel with
  | zero =>
    intro r h1 h2
    have h3 : r ≤ Nat.sqrt n := Nat.le_sqrt.mpr h1
    simp only [sqrtFloorLoop]
    omega
  | succ fuel ih =>
    intro r h1 h2
    simp only [sqrtFloorLoop]
    split_ifs with h
    · exact ih (r + 1) h (by omega)
    · exact Nat.eq_sqrt.mpr ⟨h1, by omega⟩

theorem sqrtFloor_eq (n : Nat) : sqrtFloor n = Nat.sqrt n :=
  sqrtFloorLoop_eq n n 0 (by simp) (by simpa using Nat.sqrt_le_self n)

theorem isPrimeLoop_eq_true_iff (n sqrtN : Int) : ∀ (fuel : Nat) (i : Int),
    (sqrtN + 1 - i).toNat ≤ fuel →
    (isPrimeLoop n sqrtN fuel i = true ↔
      ∀ j : Nat, i + 6 * j ≤ sqrtN → ¬ (n.tmod (i + 6 * j) = 0 ∨ n.tmod (i + 6 * j + 2) = 0)) := by
  intro fuel
  induction fuel with
  | zero =>
    intro i h
    simp only [isPrimeLoop, true_iff]
    intro j hj
    omega
  | succ fuel ih =>
    intro i h
    simp only [isPrimeLoop]
    split_ifs with h1 h2
    · simp only [Bool.false_eq_true, false_iff]
      intro hall
      exact hall 0 (by simpa using h1) (by simpa using h2)
    · rw [ih (i + 6) (by omega)]
      constructor
      · intro hall j hj
        rcases j with _ | j
        · simpa using h2
        · have := hall j (by push_cast at hj ⊢; omega)
          have e : i + 6 + 6 * (j : Int) = i + 6 * ((j + 1 : Nat) : Int) := by push_cast; ring
          rwa [e] at this
      · intro hall j hj
        have := hall (j + 1) (by push_cast; omega)
        have e : i + 6 + 6 * (j : Int) = i + 6 * ((j + 1 : Nat) : Int) := by push_cast; ring
        rwa [e]
    · simp only [true_iff]
      intro j hj
      omega

/-- The loop of `isPrime` does not depend on the fuel once the fuel covers the
distance from `i` to `sqrtN`: the fuel-exhausted branch is then never taken. -/
theorem isPrimeLoop_fuel_irrelevant (n sqrtN : Int) (fuel₁ fuel₂ : Nat) (i : Int)
    (h₁ : (sqrtN + 1 - i).toNat ≤ fuel₁) (h₂ : (sqrtN + 1 - i).toNat ≤ fuel₂) :
    isPrimeLoop n sqrtN fuel₁ i = isPrimeLoop n sqrtN fuel₂ i := by
  rw [Bool.eq_iff_iff, isPrimeLoop_eq_true_iff n sqrtN fuel₁ i h₁,
    isPrimeLoop_eq_true_iff n sqrtN fuel₂ i h₂]

/-- The fuel `isPrime` passes to its loop is enough: any larger amount gives
the same result. -/
theorem isPrime_fuel_enough (n : Int) (sqrtN : Int) (extra : Nat) :
    isPrimeLoop n sqrtN sqrtN.toNat 5 = isPrimeLoop n sqrtN (sqrtN.toNat + extra) 5 :=
  isPrimeLoop_fuel_irrelevant n sqrtN _ _ 5 (by omega) (by omega)

theorem tmod_eq_zero_iff_dvd (m d : Nat) : ((m : Int).tmod (d : Int) = 0) ↔ d ∣ m := by
  constructor
  · intro h
    exact Int.natCast_dvd_natCast.mp (Int.dvd_of_tmod_eq_zero h)
  · intro h
    exact Int.tmod_eq_zero_of_dvd (Int.natCast_dvd_natCast.mpr h)

theorem isPrime_natCast_iff (m : Nat) : isPrime (m : Int) = true ↔ Nat.Prime m := by
  unfold isPrime
  split_ifs with h1 h3 h23
  · have : m ≤ 1 := by omega
    simp only [Bool.false_eq_true, false_iff]
    intro hp
    have := hp.two_le
    omega
  · have : m = 2 ∨ m = 3 := by omega
    rcases this with rfl | rfl
    · simp [Nat.prime_two]
    · simp [Nat.prime_three]
  · simp only [Bool.false_eq_true, false_iff]
    intro hp
    have e2 : ((2 : Nat) : Int) = 2 := rfl
    have e3 : ((3 : Nat) : Int) = 3 := rfl
    rw [← e2, ← e3, tmod_eq_zero_iff_dvd, tmod_eq_zero_iff_dvd] at h23
    rcases h23 with h | h
    · rcases hp.eq_one_or_self_of_dvd 2 h with h | h <;> omega
    · rcases hp.eq_one_or_self_of_dvd 3 h with h | h <;> omega
  · have e2 : ((2 : Nat) : Int) = 2 := rfl
    have e3 : ((3 : Nat) : Int) = 3 := rfl
    rw [← e2, ← e3, tmod_eq_zero_iff_dvd, tmod_eq_zero_iff_dvd] at h23
    push_neg at h23
    obtain ⟨hn2, hn3⟩ := h23
    have hm : 4 ≤ m := by omega
    simp only [Int.toNat_ofNat, sqrtFloor_eq]
    rw [isPrimeLoop_eq_true_iff _ _ _ _ (by omega)]
    have hs1 : Nat.sqrt m * Nat.sqrt m ≤ m := Nat.sqrt_le m
    constructor
    · intro hall
      by_contra hnp
      have hq : (Nat.minFac m).Prime := Nat.minFac_prime (by omega)
      have hqd : Nat.minFac m ∣ m := Nat.minFac_dvd m
      have hqs : Nat.minFac m ^ 2 ≤ m := Nat.minFac_sq_le_self (by omega) hnp
      have hqle : Nat.minFac m ≤ Nat.sqrt m := Nat.le_sqrt.mpr (by rw [← sq]; exact hqs)
      generalize Nat.minFac m = q at hq hqd hqs hqle
      have hq2 : q % 2 ≠ 0 := fun h => hn2 (dvd_trans (Nat.dvd_of_mod_eq_zero h) hqd)
      have hq3 : q % 3 ≠ 0 := fun h => hn3 (dvd_trans (Nat.dvd_of_mod_eq_zero h) hqd)
      have hq5 := hq.two_le
      have hcase : q % 6 = 5 ∨ q % 6 = 1 := by omega
      rcases hcase with h5 | h1
      · apply hall ((q - 5) / 6) (by omega)
        left
        have e : (5 : Int) + 6 * (((q - 5) / 6 : Nat) : Int) = (q : Int) := by omega
        rw [e, tmod_eq_zero_iff_dvd]
        exact hqd
      · apply hall ((q - 7) / 6) (by omega)
        right
        have e : (5 : Int) + 6 * (((q - 7) / 6 : Nat) : Int) + 2 = (q : Int) := by omega
        rw [e, tmod_eq_zero_iff_dvd]
        exact hqd
    · intro hp j hj
      have hslt : Nat.sqrt m < m := Nat.sqrt_lt_self (by omega)
      have hs5 : 5 ≤ Nat.sqrt m := by omega
      have hs2 : Nat.sqrt m + 2 < m := by nlinarith
      have e1 : (5 : Int) + 6 * (j : Int) = ((5 + 6 * j : Nat) : Int) := by push_cast; ring
      have e2 : (5 : Int) + 6 * (j : Int) + 2 = ((7 + 6 * j : Nat) : Int) := by push_cast; ring
      rw [e2, e1, tmod_eq_zero_iff_dvd, tmod_eq_zero_iff_dvd]
      rintro (h | h)
      · rcases hp.eq_one_or_self_of_dvd _ h with h | h <;> omega
      · rcases hp.eq_one_or_self_of_dvd _ h with h | h <;> omega

theorem isPrime_iff_natPrime (n : Int) : isPrime n = true ↔ 0 ≤ n ∧ Nat.Prime n.toNat := by
  rcases le_or_lt 0 n with h | h
  · obtain ⟨m, rfl⟩ := Int.eq_ofNat_of_zero_le h
    simp [isPrime_natCast_iff]
  · have : isPrime n = false := by
      unfold isPrime
      rw [if_pos (by omega)]
    simp [this]
    omega


theorem isPrimeNumber_iff_natPrime (n : Int) :
    IsPrimeNumber n ↔ 0 ≤ n ∧ Nat.Prime n.toNat := by
  unfold IsPrimeNumber
  constructor
  · rintro ⟨h2, hd⟩
    refine ⟨by omega, ?_⟩
    obtain ⟨m, rfl⟩ := Int.eq_ofNat_of_zero_le (by omega : 0 ≤ n)
    simp only [Int.toNat_ofNat]
    rw [Nat.prime_def_lt]
    refine ⟨by omega, fun d hdm hdvd => ?_⟩
    by_contra h1
    have hd0 : d ≠ 0 := by
      rintro rfl
      have := Nat.eq_zero_of_zero_dvd hdvd
      omega
    exact hd (d : Int) (by omega) (by omega) (Int.natCast_dvd_natCast.mpr hdvd)
  · rintro ⟨h0, hp⟩
    obtain ⟨m, rfl⟩ := Int.eq_ofNat_of_zero_le h0
    simp only [Int.toNat_ofNat] at hp
    have h2 := hp.two_le
    refine ⟨by omega, fun d hd1 hdn hdvd => ?_⟩
    obtain ⟨k, rfl⟩ := Int.eq_ofNat_of_zero_le (by omega : 0 ≤ d)
    rcases hp.eq_one_or_self_of_dvd k (Int.natCast_dvd_natCast.mp hdvd) with h | h <;> omega

theorem isPrime_iff_isPrimeNumber (n : Int) : isPrime n = true ↔ IsPrimeNumber n := by
  rw [isPrime_iff_natPrime, isPrimeNumber_iff_natPrime]

/-- C1: for every integer `n`, `isPrime n` is true exactly when `n` is a prime
number (at least 2, no divisor strictly between 1 and `n`); in particular it is
false for every `n ≤ 1`, true for 2 and 3, and false for every even `n > 2`.
The square-root bound of the loop is the floor of the square root. -/
theorem isPrime_correct (n : Int) :
    (isPrime n = true ↔ (2 ≤ n ∧ ∀ d : Int, 1 < d → d < n → ¬ d ∣ n)) ∧
    (n ≤ 1 → isPrime n = false) ∧
    isPrime 2 = true ∧ isPrime 3 = true ∧
    (2 < n → 2 ∣ n → isPrime n = false) := by
  have key := isPrime_iff_isPrimeNumber n
  unfold IsPrimeNumber at key
  refine ⟨key, ?_, by decide, by decide, ?_⟩
  · intro h
    rw [← Bool.not_eq_true, key]
    rintro ⟨h2, _⟩
    omega
  · intro h2 hdvd
    rw [← Bool.not_eq_true, key]
    rintro ⟨_, hd⟩
    exact hd 2 (by omega) h2 hdvd

/-! ## Wrap-around -/

theorem wrap_of_isInt64 (x : Int) (h : IsInt64 x) : wrap x = x := by
  simp only [IsInt64, MinInt64, MaxInt64] at h
  simp only [wrap]
  omega

theorem wrap_isInt64 (x : Int) : IsInt64 (wrap x) := by
  simp only [IsInt64, MinInt64, MaxInt64, wrap]
  omega

/-! ## The worker -/

theorem map_range_succ_int (num : Int) (k : Nat) :
    (List.range (k + 1)).map (fun j : Nat => num + (j : Int)) =
      num :: (List.range k).map (fun j : Nat => num + 1 + (j : Int)) := by
  rw [List.range_succ_eq_map]
  simp only [List.map_cons, List.map_map, Nat.cast_zero, add_zero, List.cons.injEq, true_and]
  apply List.map_congr_left
  intro a _
  simp only [Function.comp, Nat.cast_succ]
  ring

/-- While `end` is below `MaxInt64` the counter never wraps: with more fuel
than integers left, the loop ends and returns the slice extended by the primes
of `[num, end]` in increasing order. -/
theorem findPrimesLoop_eq_some (end_ : Int) (hend : end_ < MaxInt64) :
    ∀ (fuel : Nat) (num : Int) (primes : List Int), MinInt64 ≤ num →
    (end_ + 1 - num).toNat < fuel →
    findPrimesLoop end_ fuel num primes =
      some (primes ++ ((List.range (end_ + 1 - num).toNat).map
        (fun j : Nat => num + (j : Int))).filter (fun x => isPrime x)) := by
  intro fuel
  induction fuel with
  | zero => intro num primes _ h; omega
  | succ fuel ih =>
    intro num primes hnum h
    simp only [findPrimesLoop]
    by_cases h1 : num ≤ end_
    · have hw : wrap (num + 1) = num + 1 := by
        apply wrap_of_isInt64
        simp only [IsInt64, MinInt64, MaxInt64] at hend hnum ⊢
        omega
      have hnum1 : MinInt64 ≤ num + 1 := by
        simp only [MinInt64] at hnum ⊢
        omega
      rw [if_pos h1, hw, ih _ _ hnum1 (by omega)]
      have e : (end_ + 1 - num).toNat = (end_ + 1 - (num + 1)).toNat + 1 := by omega
      rw [e, map_range_succ_int]
      by_cases h2 : isPrime num = true
      · simp [List.filter_cons, h2]
      · simp [List.filter_cons, h2]
    · have : (end_ + 1 - num).toNat = 0 := by omega
      rw [if_neg h1, this]
      simp

/-- When `end` is `MaxInt64` (or more) the loop condition `num <= end` holds
after every `num++`, so the loop started at a `num ≤ end` never ends: it runs
out of every amount of fuel. -/
theorem findPrimesLoop_diverges (end_ : Int) (hend : MaxInt64 ≤ end_) :
    ∀ (fuel : Nat) (num : Int) (primes : List Int), num ≤ end_ →
    findPrimesLoop end_ fuel num primes = none := by
  intro fuel
  induction fuel with
  | zero => intro num primes _; rfl
  | succ fuel ih =>
    intro num primes h
    simp only [findPrimesLoop]
    rw [if_pos h]
    apply ih
    have := (wrap_isInt64 (num + 1)).2
    omega

theorem normalised_start (start : Int) : (if start < 2 then 2 else start) = max start 2 := by
  split_ifs with h
  · rw [max_eq_right (by omega)]
  · rw [max_eq_left (by omega)]

/-- For `end` below `MaxInt64`, `findPrimesInRange` returns the primes of
`[max start 2, end]` in increasing order. -/
theorem findPrimesInRange_eq_some (start end_ : Int) (hend : end_ < MaxInt64) :
    findPrimesInRange start end_ = some (primesBetween start end_) := by
  unfold findPrimesInRange primesBetween
  simp only [normalised_start]
  rw [findPrimesLoop_eq_some end_ hend _ _ _ _ (by omega)]
  · simp
  · simp only [MinInt64]
    omega

/-- The fuel `findPrimesInRange` passes to its loop is enough whenever `end` is
below `MaxInt64`: any larger amount gives the same result. -/
theorem findPrimesInRange_fuel_enough (start end_ : Int) (hend : end_ < MaxInt64) (extra : Nat) :
    findPrimesLoop end_ ((end_ + 1 - max start 2).toNat + 1 + extra) (max start 2) [] =
      findPrimesInRange start end_ := by
  rw [findPrimesInRange_eq_some start end_ hend]
  unfold primesBetween
  rw [findPrimesLoop_eq_some end_ hend _ _ _ _ (by omega)]
  · simp
  · simp only [MinInt64]
    omega

/-- For `end = MaxInt64` (or more) and a non-empty normalised range,
`findPrimesInRange` does not return: its loop runs out of every amount of
fuel. -/
theorem findPrimesInRange_eq_none (start end_ : Int) (hend : MaxInt64 ≤ end_)
    (hstart : max start 2 ≤ end_) :
    findPrimesInRange start end_ = none ∧
    ∀ fuel : Nat, findPrimesLoop end_ fuel (max start 2) [] = none := by
  refine ⟨?_, fun fuel => findPrimesLoop_diverges end_ hend fuel _ _ hstart⟩
  unfold findPrimesInRange
  simp only [normalised_start]
  exact findPrimesLoop_diverges end_ hend _ _ _ hstart

/-- An empty normalised range is left at the first test of the loop
condition. -/
theorem findPrimesInRange_of_lt (start end_ : Int) (h : end_ < max start 2) :
    findPrimesInRange start end_ = some [] := by
  unfold findPrimesInRange
  simp only [normalised_start]
  have : (end_ + 1 - max start 2).toNat = 0 := by omega
  rw [this]
  simp only [findPrimesLoop]
  rw [if_neg (by omega)]

theorem mem_primesBetween (start end_ p : Int) :
    p ∈ primesBetween start end_ ↔ isPrime p = true ∧ max start 2 ≤ p ∧ p ≤ end_ := by
  unfold primesBetween
  simp only [List.mem_filter, List.mem_map, List.mem_range]
  constructor
  · rintro ⟨⟨j, hj, rfl⟩, hp⟩
    exact ⟨hp, by omega, by omega⟩
  · rintro ⟨hp, h1, h2⟩
    exact ⟨⟨(p - max start 2).toNat, by omega, by omega⟩, hp⟩

theorem primesBetween_pairwise (start end_ : Int) :
    (primesBetween start end_).Pairwise (fun a b => a < b) := by
  unfold primesBetween
  apply List.Pairwise.filter
  apply List.Pairwise.map _ _ (List.pairwise_lt_range _)
  intro a b hab
  omega

theorem primesBetween_of_lt (start end_ : Int) (h : end_ < max start 2) :
    primesBetween start end_ = [] := by
  unfold primesBetween
  have : (end_ + 1 - max start 2).toNat = 0 := by omega
  rw [this]
  rfl

/-- Whatever `findPrimesInRange` returns is `primesBetween` of its bounds. -/
theorem findPrimesInRange_some_eq (start end_ : Int) (l : List Int)
    (h : findPrimesInRange start end_ = some l) : l = primesBetween start end_ := by
  by_cases hend : end_ < MaxInt64
  · rw [findPrimesInRange_eq_some start end_ hend] at h
    exact (Option.some.inj h).symm
  · by_cases hstart : max start 2 ≤ end_
    · rw [(findPrimesInRange_eq_none start end_ (by omega) hstart).1] at h
      cases h
    · rw [findPrimesInRange_of_lt start end_ (by omega)] at h
      rw [primesBetween_of_lt start end_ (by omega)]
      exact (Option.some.inj h).symm

/-- The message a worker sends for a task whose computation returns is
`PrimesFound` carrying the returned primes, whatever the outcome of the
send. -/
theorem worker_sentResults (sendFailed : Bool) (w : Worker) (task : CalculatePrimes)
    (l : List Int) (h : findPrimesInRange task.RangeStart task.RangeEnd = some l) :
    sentResults (Worker.HandleMessage sendFailed w (.CalculatePrimes task)).effects = [⟨l⟩] := by
  cases sendFailed <;> simp [Worker.HandleMessage, sentResults, h]

/-- A worker whose computation does not return sends nothing. -/
theorem worker_diverges (sendFailed : Bool) (w : Worker) (task : CalculatePrimes)
    (h : findPrimesInRange task.RangeStart task.RangeEnd = none) :
    (Worker.HandleMessage sendFailed w (.CalculatePrimes task)).ret = Return.diverged ∧
    (Worker.HandleMessage sendFailed w (.CalculatePrimes task)).effects = [] := by
  simp [Worker.HandleMessage, h]

/-- C2 as stated fails at `end = MaxInt64`: 2 is a prime of `[max 0 2, MaxInt64]`,
but `findPrimesInRange 0 MaxInt64` returns no list, since `num <= end` holds for
every value of `num` and the loop runs out of every amount of fuel. -/
theorem findPrimesInRange_diverges_at_maxInt :
    (IsPrimeNumber 2 ∧ max (0 : Int) 2 ≤ 2 ∧ (2 : Int) ≤ MaxInt64) ∧
    findPrimesInRange 0 MaxInt64 = none ∧
    (∀ fuel : Nat, findPrimesLoop MaxInt64 fuel (max 0 2) [] = none) ∧
    (Worker.HandleMessage false Worker.zero (.CalculatePrimes ⟨0, MaxInt64⟩)).ret =
      Return.diverged :=
  ⟨⟨(isPrime_iff_isPrimeNumber 2).mp (by decide), by decide, by decide⟩,
    (findPrimesInRange_eq_none 0 MaxInt64 le_rfl (by decide)).1,
    (findPrimesInRange_eq_none 0 MaxInt64 le_rfl (by decide)).2,
    (worker_diverges false Worker.zero ⟨0, MaxInt64⟩
      (findPrimesInRange_eq_none 0 MaxInt64 le_rfl (by decide)).1).1⟩

/-- C2, amended: for all integers `start` and `end` with `end < MaxInt64`,
`findPrimesInRange start end` returns a list, an integer `p` occurs in it if
and only if `p` is a prime number and `max start 2 ≤ p ≤ end`, and this list is
what the worker sends for the task `{start, end}`. -/
theorem findPrimesInRange_complete_sound (start end_ p : Int) (hend : end_ < MaxInt64) :
    ∃ l, findPrimesInRange start end_ = some l ∧
      (p ∈ l ↔ IsPrimeNumber p ∧ max start 2 ≤ p ∧ p ≤ end_) ∧
      ∀ (sendFailed : Bool) (w : Worker),
        sentResults (Worker.HandleMessage sendFailed w
          (.CalculatePrimes ⟨start, end_⟩)).effects = [⟨l⟩] := by
  have hsome := findPrimesInRange_eq_some start end_ hend
  refine ⟨_, hsome, ?_, fun sendFailed w => worker_sentResults sendFailed w ⟨start, end_⟩ _ hsome⟩
  rw [mem_primesBetween, isPrime_iff_isPrimeNumber]

/-- The hypothesis of the amended C2 holds for the task `{0, 19}`: the worker
returns a list, which contains 7. -/
theorem findPrimesInRange_complete_sound_witness :
    ∃ l, findPrimesInRange 0 19 = some l ∧
      ((7 : Int) ∈ l ↔ IsPrimeNumber 7 ∧ max (0 : Int) 2 ≤ 7 ∧ (7 : Int) ≤ 19) ∧
      ∀ (sendFailed : Bool) (w : Worker),
        sentResults (Worker.HandleMessage sendFailed w
          (.CalculatePrimes ⟨0, 19⟩)).effects = [⟨l⟩] :=
  findPrimesInRange_complete_sound 0 19 7 (by decide)

/-- C16: for all integers `start` and `end` with `end < max start 2` (in
particular whenever `start > end`, and whenever `end < 2`),
`findPrimesInRange start end` returns the empty sequence. -/
theorem findPrimesInRange_empty_of_inverted (start end_ : Int) (h : end_ < max start 2) :
    findPrimesInRange start end_ = some [] :=
  findPrimesInRange_of_lt start end_ h

/-- The hypothesis of C16 holds for the inverted range `{10, 3}`. -/
theorem findPrimesInRange_empty_of_inverted_witness :
    findPrimesInRange 10 3 = some [] :=
  findPrimesInRange_empty_of_inverted 10 3 (by decide)

/-- C19: for all integers `start` and `end`, the sequence
`findPrimesInRange start end` returns is strictly increasing, hence without
duplicates; it does return one whenever `end < MaxInt64`. -/
theorem findPrimesInRange_strictly_increasing (start end_ : Int) :
    (∀ l, findPrimesInRange start end_ = some l →
      l.Pairwise (fun a b => a < b) ∧ l.Nodup) ∧
    (end_ < MaxInt64 → ∃ l, findPrimesInRange start end_ = some l) := by
  refine ⟨fun l h => ?_, fun hend => ⟨_, findPrimesInRange_eq_some start end_ hend⟩⟩
  rw [findPrimesInRange_some_eq start end_ l h]
  have hsorted := primesBetween_pairwise start end_
  exact ⟨hsorted, hsorted.imp (fun h => ne_of_lt h)⟩

/-! ## The dispatcher -/

/-- Truncating division by `k ≥ 1`: the quotient has the sign of the dividend,
is no larger in absolute value, and `k` times it does not pass the dividend. -/
theorem tdiv_bounds (S k : Int) (hk : 1 ≤ k) :
    (0 ≤ S → 0 ≤ S.tdiv k ∧ S.tdiv k ≤ S ∧ k * S.tdiv k ≤ S ∧ S.tdiv k = S / k) ∧
    (S ≤ 0 → S.tdiv k ≤ 0 ∧ S ≤ S.tdiv k ∧ S ≤ k * S.tdiv k) := by
  constructor
  · intro hS
    have e : S.tdiv k = S / k := Int.tdiv_eq_ediv hS (by omega)
    rw [e]
    have h1 : 0 ≤ S / k := Int.ediv_nonneg hS (by omega)
    have h2 : k * (S / k) ≤ S := Int.mul_ediv_self_le (by omega)
    have h3 : (S / k) ≤ k * (S / k) := by nlinarith
    exact ⟨h1, by omega, h2, rfl⟩
  · intro hS
    have e : S.tdiv k = -((-S) / k) := by
      have := Int.neg_tdiv (-S) k
      rw [neg_neg] at this
      rw [this, Int.tdiv_eq_ediv (by omega) (by omega)]
    rw [e]
    have h1 : 0 ≤ (-S) / k := Int.ediv_nonneg (by omega) (by omega)
    have h2 : k * ((-S) / k) ≤ -S := Int.mul_ediv_self_le (by omega)
    have h3 : ((-S) / k) ≤ k * ((-S) / k) := by nlinarith
    have h4 : k * -((-S) / k) = -(k * ((-S) / k)) := by ring
    rw [h4]
    exact ⟨by omega, by omega, by omega⟩

theorem tdiv_eq_ediv_of_nonneg (S k : Int) (hS : 0 ≤ S) (hk : 1 ≤ k) : S.tdiv k = S / k :=
  Int.tdiv_eq_ediv hS (by omega)

theorem size_nonneg (S k : Int) (hS : 0 ≤ S) (hk : 1 ≤ k) : 0 ≤ S / k :=
  Int.ediv_nonneg hS (by omega)

/-- With a divisor other than zero the division does not panic and the
iteration has a sub-range. -/
theorem workerRange_isSome_of_ne_zero (msg : CalculatePrimes) (k i : Int) (hk : k ≠ 0) :
    ∃ r, workerRange msg k i = some r := by
  simp [workerRange, goDiv, hk]

/-- When no operation wraps around, the sub-range of worker index `i < k` is
`[start + i*size, start + i*size + size - 1]` with
`size = (end - start + 1) / k`, in exact integer arithmetic. -/
theorem workerRange_exact (msg : CalculatePrimes) (k : Int) (i : Nat) (hk : 1 ≤ k)
    (hi : (i : Int) < k) (hno : NoOverflow msg k) :
    workerRange msg k i =
      some ⟨msg.RangeStart + (i : Int) * (msg.RangeEnd - msg.RangeStart + 1).tdiv k,
        msg.RangeStart + (i : Int) * (msg.RangeEnd - msg.RangeStart + 1).tdiv k +
          (msg.RangeEnd - msg.RangeStart + 1).tdiv k - 1⟩ := by
  obtain ⟨hs, he, hS, hfirst⟩ := hno
  have hSw : wrap (wrap (msg.RangeEnd - msg.RangeStart) + 1) =
      msg.RangeEnd - msg.RangeStart + 1 := by
    simp only [IsInt64, MinInt64, MaxInt64] at hS
    simp only [wrap]
    omega
  obtain ⟨hpos, hneg⟩ := tdiv_bounds (msg.RangeEnd - msg.RangeStart + 1) k hk
  have hzero : (msg.RangeEnd - msg.RangeStart + 1).tdiv k = 0 →
      (i : Int) * (msg.RangeEnd - msg.RangeStart + 1).tdiv k = 0 := by
    intro h
    rw [h, mul_zero]
  have hmulpos : 0 ≤ (msg.RangeEnd - msg.RangeStart + 1).tdiv k →
      0 ≤ (i : Int) * (msg.RangeEnd - msg.RangeStart + 1).tdiv k ∧
      (i : Int) * (msg.RangeEnd - msg.RangeStart + 1).tdiv k +
        (msg.RangeEnd - msg.RangeStart + 1).tdiv k ≤
          k * (msg.RangeEnd - msg.RangeStart + 1).tdiv k := by
    intro hq
    constructor
    · exact mul_nonneg (by omega) hq
    · have := mul_le_mul_of_nonneg_right (by omega : (i : Int) + 1 ≤ k) hq
      linarith
  have hmulneg : (msg.RangeEnd - msg.RangeStart + 1).tdiv k ≤ 0 →
      (i : Int) * (msg.RangeEnd - msg.RangeStart + 1).tdiv k ≤ 0 ∧
      k * (msg.RangeEnd - msg.RangeStart + 1).tdiv k ≤
        (i : Int) * (msg.RangeEnd - msg.RangeStart + 1).tdiv k +
          (msg.RangeEnd - msg.RangeStart + 1).tdiv k := by
    intro hq
    constructor
    · exact mul_nonpos_of_nonneg_of_nonpos (by omega) hq
    · have := mul_le_mul_of_nonpos_right (by omega : (i : Int) + 1 ≤ k) hq
      linarith
  simp only [workerRange, goDiv, hSw, if_neg (by omega : ¬ k = 0)]
  simp only [IsInt64, MinInt64, MaxInt64] at hs he hS hfirst
  generalize (msg.RangeEnd - msg.RangeStart + 1).tdiv k = q at *
  generalize k * q = kq at *
  have hqw : wrap q = q := by
    simp only [wrap]
    omega
  rw [hqw]
  generalize (i : Int) * q = iq at *
  simp only [wrap, Option.some.injEq, CalculatePrimes.mk.injEq]
  constructor <;> omega

/-- When every remaining iteration has a sub-range and a successful spawn, the
loop runs to its end: each iteration adds one spawn and one send of the
iteration's sub-range to the spawned process. -/
theorem dispatchLoop_of_spawns (rt : Runtime) (td : TaskDispatcher) (msg : CalculatePrimes)
    (task : Nat → CalculatePrimes) :
    ∀ (indices : List Nat) (effects : List Effect),
      (∀ i ∈ indices, workerRange msg td.numberOfWorkers (i : Int) = some (task i)) →
      (∀ i ∈ indices, (rt.spawn i).isSome = true) →
      dispatchLoop rt td msg indices effects =
        (effects ++ indices.flatMap (fun i =>
          [Effect.spawned ((rt.spawn i).getD 0),
           Effect.send (.pid ((rt.spawn i).getD 0)) (.CalculatePrimes (task i))]),
         Return.nil) := by
  intro indices
  induction indices with
  | nil => intro effects _ _; simp [dispatchLoop]
  | cons i rest ih =>
    intro effects htask h
    have hi : (rt.spawn i).isSome = true := h i (List.mem_cons_self _ _)
    obtain ⟨pid, hpid⟩ := Option.isSome_iff_exists.mp hi
    simp only [dispatchLoop, htask i (List.mem_cons_self _ _), hpid]
    rw [ih _ (fun j hj => htask j (List.mem_cons_of_mem _ hj))
      (fun j hj => h j (List.mem_cons_of_mem _ hj))]
    simp [List.flatMap_cons, hpid]

theorem sentTasks_flatMap (pid : Nat → PID) (task : Nat → CalculatePrimes) (indices : List Nat) :
    sentTasks (indices.flatMap (fun i =>
      [Effect.spawned (pid i), Effect.send (.pid (pid i)) (.CalculatePrimes (task i))])) =
      indices.map (fun i => (pid i, task i)) := by
  induction indices with
  | nil => simp [sentTasks]
  | cons i rest ih =>
    simp only [sentTasks] at ih
    simp [sentTasks, List.flatMap_cons, List.filterMap_append, ih]

theorem spawnedPids_flatMap (pid : Nat → PID) (task : Nat → CalculatePrimes) (indices : List Nat) :
    spawnedPids (indices.flatMap (fun i =>
      [Effect.spawned (pid i), Effect.send (.pid (pid i)) (.CalculatePrimes (task i))])) =
      indices.map pid := by
  induction indices with
  | nil => simp [spawnedPids]
  | cons i rest ih =>
    simp only [spawnedPids] at ih
    simp [spawnedPids, List.flatMap_cons, List.filterMap_append, ih]

/-- The integers of the sub-ranges of all worker indices below `k`, for a
sub-range size `size ≥ 0`: the interval `[start, start + k*size - 1]`. -/
theorem exists_index_iff (start size k x : Int) (hsz : 0 ≤ size) :
    (∃ i : Nat, (i : Int) < k ∧ start + (i : Int) * size ≤ x ∧
        x ≤ start + (i : Int) * size + size - 1) ↔
      start ≤ x ∧ x ≤ start + k * size - 1 := by
  constructor
  · rintro ⟨i, hi, h1, h2⟩
    have h3 : 0 ≤ (i : Int) * size := mul_nonneg (by omega) hsz
    have h4 : ((i : Int) + 1) * size ≤ k * size := mul_le_mul_of_nonneg_right (by omega) hsz
    have e : ((i : Int) + 1) * size = (i : Int) * size + size := by ring
    constructor <;> omega
  · rintro ⟨h1, h2⟩
    have hpos : 0 < size := by
      by_contra hn
      have : size = 0 := by omega
      subst this
      simp at h2
      omega
    have hq0 : 0 ≤ (x - start) / size := Int.ediv_nonneg (by omega) hsz
    have hq1 : (x - start) / size * size ≤ x - start := Int.ediv_mul_le _ (by omega)
    have hq2 : x - start < ((x - start) / size + 1) * size :=
      Int.lt_ediv_add_one_mul_self _ hpos
    have hq3 : (x - start) / size < k := Int.ediv_lt_of_lt_mul hpos (by omega)
    have e : ((x - start) / size + 1) * size = (x - start) / size * size + size := by ring
    refine ⟨((x - start) / size).toNat, ?_, ?_, ?_⟩
    · rw [Int.toNat_of_nonneg hq0]
      exact hq3
    · rw [Int.toNat_of_nonneg hq0]
      omega
    · rw [Int.toNat_of_nonneg hq0]
      omega

/-- C3 as stated fails where the arithmetic wraps around.  For the request
`{0, MaxInt64}` with 2 workers, `end - start + 1` wraps to `MinInt64`, the
size is `-2^62` and the dispatcher sends `{0, -2^62 - 1}` and
`{-2^62, MaxInt64}`, while the claimed first sub-range ends at
`0 + 0*size + size - 1 = 2^62 - 1` for the integer quotient `size = 2^62`.
For the request `{MinInt64, MinInt64}` with 2 workers the size is 0 and the
dispatcher sends `{MinInt64, MaxInt64}` twice, while the claimed sub-range
ends at `MinInt64 - 1`. -/
theorem dispatcher_tasks_wrap_around :
    ((sentTasks (TaskDispatcher.HandleMessage reliableRuntime ⟨2⟩
        (.CalculatePrimes ⟨0, MaxInt64⟩)).effects).map Prod.snd =
      [⟨0, -4611686018427387905⟩, ⟨-4611686018427387904, MaxInt64⟩] ∧
    (0 : Int) + ((0 : Nat) : Int) * (MaxInt64 - 0 + 1).tdiv 2 + (MaxInt64 - 0 + 1).tdiv 2 - 1 =
      4611686018427387903) ∧
    ((sentTasks (TaskDispatcher.HandleMessage reliableRuntime ⟨2⟩
        (.CalculatePrimes ⟨MinInt64, MinInt64⟩)).effects).map Prod.snd =
      [⟨MinInt64, MaxInt64⟩, ⟨MinInt64, MaxInt64⟩] ∧
    MinInt64 + ((0 : Nat) : Int) * (MinInt64 - MinInt64 + 1).tdiv 2 +
      (MinInt64 - MinInt64 + 1).tdiv 2 - 1 ≠ MaxInt64) := by
  decide

/-- C3, amended: for every request `{start, end}` and every worker count
`k ≥ 1` for which no operation of the partitioning wraps around (`NoOverflow`),
when the runtime's spawns succeed, handling `CalculatePrimes` returns `nil`
after spawning exactly `k` workers and sending exactly `k` task messages, the
`i`-th to the `i`-th spawned worker; the task of worker index `i` is the
sub-range `[start + i*size, start + i*size + size - 1]` with
`size = (end - start + 1) / k` by Go's integer division. -/
theorem dispatcher_sends_one_task_per_worker (rt : Runtime) (td : TaskDispatcher)
    (msg : CalculatePrimes) (hk : 1 ≤ td.numberOfWorkers)
    (hno : NoOverflow msg td.numberOfWorkers)
    (hspawn : ∀ i : Nat, i < td.numberOfWorkers.toNat → (rt.spawn i).isSome = true) :
    (td.HandleMessage rt (.CalculatePrimes msg)).ret = Return.nil ∧
    (td.HandleMessage rt (.CalculatePrimes msg)).state = td ∧
    (spawnedPids (td.HandleMessage rt (.CalculatePrimes msg)).effects).length =
      td.numberOfWorkers.toNat ∧
    (sentTasks (td.HandleMessage rt (.CalculatePrimes msg)).effects).length =
      td.numberOfWorkers.toNat ∧
    (sentTasks (td.HandleMessage rt (.CalculatePrimes msg)).effects).map Prod.fst =
      spawnedPids (td.HandleMessage rt (.CalculatePrimes msg)).effects ∧
    ∀ i : Nat, (i : Int) < td.numberOfWorkers →
      ((sentTasks (td.HandleMessage rt (.CalculatePrimes msg)).effects).map Prod.snd)[i]? =
        some ⟨msg.RangeStart + (i : Int) *
                (msg.RangeEnd - msg.RangeStart + 1).tdiv td.numberOfWorkers,
              msg.RangeStart + (i : Int) *
                (msg.RangeEnd - msg.RangeStart + 1).tdiv td.numberOfWorkers +
                (msg.RangeEnd - msg.RangeStart + 1).tdiv td.numberOfWorkers - 1⟩ := by
  have hloop := dispatchLoop_of_spawns rt td msg
    (fun i => ⟨msg.RangeStart + (i : Int) *
        (msg.RangeEnd - msg.RangeStart + 1).tdiv td.numberOfWorkers,
      msg.RangeStart + (i : Int) *
        (msg.RangeEnd - msg.RangeStart + 1).tdiv td.numberOfWorkers +
        (msg.RangeEnd - msg.RangeStart + 1).tdiv td.numberOfWorkers - 1⟩)
    (List.range td.numberOfWorkers.toNat) []
    (fun i hi => workerRange_exact msg _ i hk (by have := List.mem_range.mp hi; omega) hno)
    (fun i hi => hspawn i (List.mem_range.mp hi))
  simp only [TaskDispatcher.HandleMessage, hloop, List.nil_append, sentTasks_flatMap,
    spawnedPids_flatMap, List.length_map, List.length_range, List.map_map, true_and]
  refine ⟨?_, ?_⟩
  · apply List.map_congr_left
    intro i _
    rfl
  · intro i hi
    have hi2 : i < td.numberOfWorkers.toNat := by omega
    simp [List.getElem?_map, List.getElem?_range hi2]

/-- The hypotheses of the amended C3 hold for the request `{0, 100}` with 5
workers and a runtime that numbers the spawned processes. -/
theorem dispatcher_sends_one_task_per_worker_witness :
    (TaskDispatcher.HandleMessage reliableRuntime ⟨5⟩
        (.CalculatePrimes ⟨0, 100⟩)).ret = Return.nil ∧
    (sentTasks (TaskDispatcher.HandleMessage reliableRuntime ⟨5⟩
        (.CalculatePrimes ⟨0, 100⟩)).effects).length = 5 :=
  have h := dispatcher_sends_one_task_per_worker reliableRuntime ⟨5⟩ ⟨0, 100⟩
    (by decide) (by decide) (fun _ _ => rfl)
  ⟨h.1, h.2.2.2.1⟩

/-- C4 as stated fails where the arithmetic wraps around.  For the request
`{MinInt64, MinInt64}` (size `S = 1 ≥ 0`) with 2 workers the sub-range size is
`floor(1/2) = 0`, but `start + 0 - 1` wraps to `MaxInt64`, so both workers get
`{MinInt64, MaxInt64}`: the two sub-ranges share the integer 0 and are not of
size 0.  For the request `{0, MaxInt64}` (size `S = 2^63 ≥ 0`) with 2 workers
the first sub-range is `{0, -2^62 - 1}`, which holds no integer, not
`floor(S/2) = 2^62` of them. -/
theorem subranges_overlap_at_minInt :
    (((0 : Int) ≤ MinInt64 - MinInt64 + 1 ∧ (MinInt64 - MinInt64 + 1) / 2 = 0) ∧
      workerRange ⟨MinInt64, MinInt64⟩ 2 ((0 : Nat) : Int) = some ⟨MinInt64, MaxInt64⟩ ∧
      workerRange ⟨MinInt64, MinInt64⟩ 2 ((1 : Nat) : Int) = some ⟨MinInt64, MaxInt64⟩ ∧
      (CalculatePrimes.mk MinInt64 MaxInt64).Contains 0) ∧
    (((0 : Int) ≤ MaxInt64 - 0 + 1 ∧ (MaxInt64 - 0 + 1) / 2 = 4611686018427387904) ∧
      workerRange ⟨0, MaxInt64⟩ 2 ((0 : Nat) : Int) = some ⟨0, -4611686018427387905⟩ ∧
      (-4611686018427387905 : Int) < 0) := by
  decide

/-- C4, amended: for every range of size `S = end - start + 1 ≥ 0` and every
worker count `k ≥ 1` for which no operation of the partitioning wraps around
(`NoOverflow`), each worker index `i < k` gets a sub-range that contains
exactly `floor(S / k)` integers and shares no integer with the sub-range of any
other worker index. -/
theorem subranges_disjoint_and_sized (msg : CalculatePrimes) (k : Int)
    (hS : 0 ≤ msg.RangeEnd - msg.RangeStart + 1) (hk : 1 ≤ k) (hno : NoOverflow msg k)
    (i : Nat) (hi : (i : Int) < k) :
    ∃ a, workerRange msg k i = some a ∧
      ((Finset.Icc a.RangeStart a.RangeEnd).card : Int) =
        (msg.RangeEnd - msg.RangeStart + 1) / k ∧
      ∀ j : Nat, (j : Int) < k → j ≠ i → ∀ b, workerRange msg k j = some b →
        ∀ x : Int, ¬ (a.Contains x ∧ b.Contains x) := by
  have hsz := size_nonneg _ k hS hk
  refine ⟨_, workerRange_exact msg k i hk hi hno, ?_, ?_⟩
  · rw [tdiv_eq_ediv_of_nonneg _ k hS hk, Int.card_Icc]
    generalize (msg.RangeEnd - msg.RangeStart + 1) / k = size at hsz
    simp only
    omega
  · intro j hj hji b hb x
    rw [workerRange_exact msg k j hk hj hno] at hb
    cases Option.some.inj hb
    simp only [CalculatePrimes.Contains, tdiv_eq_ediv_of_nonneg _ k hS hk]
    generalize (msg.RangeEnd - msg.RangeStart + 1) / k = size at hsz
    rintro ⟨⟨h1, h2⟩, h3, h4⟩
    rcases Nat.lt_or_gt_of_ne hji with hlt | hgt
    · have : ((j : Int) + 1) * size ≤ (i : Int) * size :=
        mul_le_mul_of_nonneg_right (by omega) hsz
      have e : ((j : Int) + 1) * size = (j : Int) * size + size := by ring
      omega
    · have : ((i : Int) + 1) * size ≤ (j : Int) * size :=
        mul_le_mul_of_nonneg_right (by omega) hsz
      have e : ((i : Int) + 1) * size = (i : Int) * size + size := by ring
      omega

/-- The hypotheses of the amended C4 hold for the request `{0, 100}`, 5 workers
and worker index 4. -/
theorem subranges_disjoint_and_sized_witness :
    ∃ a, workerRange ⟨0, 100⟩ 5 (4 : Nat) = some a ∧
      ((Finset.Icc a.RangeStart a.RangeEnd).card : Int) = ((100 : Int) - 0 + 1) / 5 ∧
      ∀ j : Nat, (j : Int) < 5 → j ≠ 4 → ∀ b, workerRange ⟨0, 100⟩ 5 j = some b →
        ∀ x : Int, ¬ (a.Contains x ∧ b.Contains x) :=
  subranges_disjoint_and_sized ⟨0, 100⟩ 5 (by decide) (by decide) (by decide) 4 (by decide)

/-- For a range of non-negative size and `k ≥ 1` without wrap-around, the
integers assigned to a worker are those of the interval
`[start, start + k * floor(S / k) - 1]`. -/
theorem covered_iff (msg : CalculatePrimes) (k x : Int)
    (hS : 0 ≤ msg.RangeEnd - msg.RangeStart + 1) (hk : 1 ≤ k) (hno : NoOverflow msg k) :
    Covered msg k x ↔
      msg.RangeStart ≤ x ∧
        x ≤ msg.RangeStart + k * ((msg.RangeEnd - msg.RangeStart + 1) / k) - 1 := by
  rw [← exists_index_iff msg.RangeStart _ k x (size_nonneg _ k hS hk)]
  unfold Covered
  constructor
  · rintro ⟨i, hi, r, hr, hx⟩
    rw [workerRange_exact msg k i hk hi hno, tdiv_eq_ediv_of_nonneg _ k hS hk] at hr
    cases Option.some.inj hr
    exact ⟨i, hi, hx.1, hx.2⟩
  · rintro ⟨i, hi, h1, h2⟩
    refine ⟨i, hi, _, workerRange_exact msg k i hk hi hno, ?_⟩
    rw [tdiv_eq_ediv_of_nonneg _ k hS hk]
    exact ⟨h1, h2⟩

/-- The upper end of the covered interval: `start + k * floor(S / k) - 1` is
`end - S mod k`. -/
theorem truncated_end (start end_ k : Int) :
    start + k * ((end_ - start + 1) / k) - 1 = end_ - (end_ - start + 1) % k := by
  have := Int.ediv_add_emod (end_ - start + 1) k
  omega

/-- C5 as stated fails.  On the program's own request `{0, 100}` with 5 workers
the dispatched sub-ranges are `[0,19]`, `[20,39]`, `[40,59]`, `[60,79]` and
`[80,99]`: the integer 100 of the requested range lies in none of them (the
remainder of the integer division is dropped).  Where the arithmetic wraps
around, not even the range without the remainder is covered: for
`{-1, MaxInt64}` with 2 workers the size wraps to `-(2^62 - 1)`, the sub-ranges
are `{-1, -2^62 - 1}` and `{-2^62, MinInt64}`, and 0 lies in neither. -/
theorem subranges_do_not_cover :
    ((sentTasks (TaskDispatcher.HandleMessage reliableRuntime ⟨5⟩
        (.CalculatePrimes ⟨0, 100⟩)).effects).map Prod.snd =
      [⟨0, 19⟩, ⟨20, 39⟩, ⟨40, 59⟩, ⟨60, 79⟩, ⟨80, 99⟩] ∧
    (CalculatePrimes.mk 0 100).Contains 100 ∧
    ∀ r ∈ (sentTasks (TaskDispatcher.HandleMessage reliableRuntime ⟨5⟩
        (.CalculatePrimes ⟨0, 100⟩)).effects).map Prod.snd, ¬ r.Contains 100) ∧
    ((sentTasks (TaskDispatcher.HandleMessage reliableRuntime ⟨2⟩
        (.CalculatePrimes ⟨-1, MaxInt64⟩)).effects).map Prod.snd =
      [⟨-1, -4611686018427387905⟩, ⟨-4611686018427387904, MinInt64⟩] ∧
    (CalculatePrimes.mk (-1) MaxInt64).Contains 0 ∧
    (0 : Int) ≤ MaxInt64 - (MaxInt64 - (-1) + 1) % 2 ∧
    ∀ r ∈ (sentTasks (TaskDispatcher.HandleMessage reliableRuntime ⟨2⟩
        (.CalculatePrimes ⟨-1, MaxInt64⟩)).effects).map Prod.snd, ¬ r.Contains 0) := by
  decide

/-- C5, amended: for every `start ≤ end` and every worker count `k ≥ 1` for
which no operation of the partitioning wraps around (`NoOverflow`), the
dispatched sub-ranges cover `[start, end - S mod k]` with `S = end - start + 1`:
every integer `x` with `start ≤ x ≤ end - S mod k` lies in at least one of them;
this is every integer of `[start, end]` when `k` divides `S`. -/
theorem subranges_cover_up_to_truncation (start end_ k : Int) (hse : start ≤ end_)
    (hk : 1 ≤ k) (hno : NoOverflow ⟨start, end_⟩ k) :
    (∀ x : Int, start ≤ x → x ≤ end_ - (end_ - start + 1) % k → Covered ⟨start, end_⟩ k x) ∧
    (k ∣ (end_ - start + 1) → ∀ x : Int, start ≤ x → x ≤ end_ → Covered ⟨start, end_⟩ k x) := by
  have hS : 0 ≤ (CalculatePrimes.mk start end_).RangeEnd -
      (CalculatePrimes.mk start end_).RangeStart + 1 := by
    simp only
    omega
  have hcov : ∀ x : Int, start ≤ x → x ≤ end_ - (end_ - start + 1) % k →
      Covered ⟨start, end_⟩ k x := by
    intro x h1 h2
    rw [covered_iff ⟨start, end_⟩ k x hS hk hno]
    simp only
    rw [truncated_end]
    exact ⟨h1, h2⟩
  refine ⟨hcov, fun hdvd x h1 h2 => hcov x h1 ?_⟩
  rw [Int.dvd_iff_emod_eq_zero] at hdvd
  omega

/-- The hypotheses of the amended C5 hold for the request `{0, 100}` with 5
workers: the integer 99 is covered. -/
theorem subranges_cover_up_to_truncation_witness :
    Covered ⟨0, 100⟩ 5 99 :=
  (subranges_cover_up_to_truncation 0 100 5 (by decide) (by decide) (by decide)).1 99
    (by decide) (by decide)

/-- C6 as stated fails where the arithmetic wraps around: for the request
`{0, MaxInt64}` with 2 workers, 2 is a prime of the claimed interval, but
worker 0 gets `{0, -2^62 - 1}` and returns the empty list and worker 1 gets
`{-2^62, MaxInt64}` and never returns, so no worker returns 2. -/
theorem workers_miss_prime_on_overflow :
    (IsPrimeNumber 2 ∧ max (0 : Int) 2 ≤ 2 ∧
      (2 : Int) ≤ 0 + 2 * ((MaxInt64 - 0 + 1) / 2) - 1) ∧
    workerRange ⟨0, MaxInt64⟩ 2 ((0 : Nat) : Int) = some ⟨0, -4611686018427387905⟩ ∧
    findPrimesInRange 0 (-4611686018427387905) = some [] ∧
    workerRange ⟨0, MaxInt64⟩ 2 ((1 : Nat) : Int) = some ⟨-4611686018427387904, MaxInt64⟩ ∧
    findPrimesInRange (-4611686018427387904) MaxInt64 = none ∧
    ¬ ∃ i : Nat, (i : Int) < 2 ∧ ∃ r l, workerRange ⟨0, MaxInt64⟩ 2 i = some r ∧
        findPrimesInRange r.RangeStart r.RangeEnd = some l ∧ (2 : Int) ∈ l := by
  have h0 : workerRange ⟨0, MaxInt64⟩ 2 ((0 : Nat) : Int) = some ⟨0, -4611686018427387905⟩ := by
    decide
  have h1 : workerRange ⟨0, MaxInt64⟩ 2 ((1 : Nat) : Int) =
      some ⟨-4611686018427387904, MaxInt64⟩ := by
    decide
  have hf0 : findPrimesInRange 0 (-4611686018427387905) = some [] :=
    findPrimesInRange_of_lt _ _ (by decide)
  have hf1 : findPrimesInRange (-4611686018427387904) MaxInt64 = none :=
    (findPrimesInRange_eq_none _ _ le_rfl (by decide)).1
  refine ⟨⟨(isPrime_iff_isPrimeNumber 2).mp (by decide), by decide, by decide⟩,
    h0, hf0, h1, hf1, ?_⟩
  rintro ⟨i, hi, r, l, hr, hl, hmem⟩
  have hcases : i = 0 ∨ i = 1 := by omega
  rcases hcases with rfl | rfl
  · rw [h0] at hr
    cases Option.some.inj hr
    rw [hf0] at hl
    cases Option.some.inj hl
    simp at hmem
  · rw [h1] at hr
    cases Option.some.inj hr
    rw [hf1] at hl
    cases hl

/-- C6, amended: for all integers `a ≤ b < MaxInt64` and every worker count
`k ≥ 1` for which no operation of the partitioning wraps around (`NoOverflow`),
every worker returns a list, and an integer `p` is returned by some worker
(`findPrimesInRange` applied to the sub-range of a worker index below `k`) if
and only if `p` is a prime number and
`max a 2 ≤ p ≤ a + k * floor((b - a + 1) / k) - 1`: the primes of
`[max a 2, b]` without the remainder dropped by the integer division. -/
theorem workers_find_primes_up_to_truncation (a b k : Int) (hab : a ≤ b) (hk : 1 ≤ k)
    (hno : NoOverflow ⟨a, b⟩ k) (hb : b < MaxInt64) (p : Int) :
    (∀ i : Nat, (i : Int) < k → ∃ r l, workerRange ⟨a, b⟩ k i = some r ∧
        findPrimesInRange r.RangeStart r.RangeEnd = some l) ∧
    ((∃ i : Nat, (i : Int) < k ∧ ∃ r l, workerRange ⟨a, b⟩ k i = some r ∧
        findPrimesInRange r.RangeStart r.RangeEnd = some l ∧ p ∈ l) ↔
      IsPrimeNumber p ∧ max a 2 ≤ p ∧ p ≤ a + k * ((b - a + 1) / k) - 1) := by
  have hS : 0 ≤ b - a + 1 := by omega
  have hsz := size_nonneg _ k hS hk
  have hdiv := tdiv_eq_ediv_of_nonneg _ k hS hk
  have hkq : k * ((b - a + 1) / k) ≤ b - a + 1 := Int.mul_ediv_self_le (by omega)
  have hexact : ∀ i : Nat, (i : Int) < k → workerRange ⟨a, b⟩ k i =
      some ⟨a + (i : Int) * ((b - a + 1) / k),
        a + (i : Int) * ((b - a + 1) / k) + (b - a + 1) / k - 1⟩ := by
    intro i hi
    have := workerRange_exact ⟨a, b⟩ k i hk hi hno
    simp only [hdiv] at this
    exact this
  have hrange := fun x => exists_index_iff a ((b - a + 1) / k) k x hsz
  generalize (b - a + 1) / k = size at hsz hrange hdiv hexact hkq
  have hend : ∀ i : Nat, (i : Int) < k → a + (i : Int) * size + size - 1 < MaxInt64 := by
    intro i hi
    have h4 : ((i : Int) + 1) * size ≤ k * size := mul_le_mul_of_nonneg_right (by omega) hsz
    have e : ((i : Int) + 1) * size = (i : Int) * size + size := by ring
    omega
  refine ⟨fun i hi => ⟨_, _, hexact i hi, findPrimesInRange_eq_some _ _ (hend i hi)⟩, ?_⟩
  constructor
  · rintro ⟨i, hi, r, l, hr, hl, hp⟩
    rw [hexact i hi] at hr
    cases Option.some.inj hr
    simp only [findPrimesInRange_eq_some _ _ (hend i hi)] at hl
    cases Option.some.inj hl
    rw [mem_primesBetween, isPrime_iff_isPrimeNumber] at hp
    obtain ⟨hprime, h1, h2⟩ := hp
    have := (hrange p).mp ⟨i, hi, by omega, h2⟩
    exact ⟨hprime, by omega, by omega⟩
  · rintro ⟨hprime, h1, h2⟩
    obtain ⟨i, hi, h3, h4⟩ := (hrange p).mpr ⟨by omega, h2⟩
    refine ⟨i, hi, _, _, hexact i hi, findPrimesInRange_eq_some _ _ (hend i hi), ?_⟩
    rw [mem_primesBetween, isPrime_iff_isPrimeNumber]
    simp only
    exact ⟨hprime, by omega, h4⟩

/-- The hypotheses of the amended C6 hold for the request `{0, 100}` with 5
workers; the prime 97 is found. -/
theorem workers_find_primes_up_to_truncation_witness :
    (∃ i : Nat, (i : Int) < 5 ∧ ∃ r l, workerRange ⟨0, 100⟩ 5 i = some r ∧
        findPrimesInRange r.RangeStart r.RangeEnd = some l ∧ (97 : Int) ∈ l) ↔
      IsPrimeNumber 97 ∧ max (0 : Int) 2 ≤ 97 ∧ (97 : Int) ≤ 0 + 5 * ((100 - 0 + 1) / 5) - 1 :=
  (workers_find_primes_up_to_truncation 0 100 5 (by decide) (by decide) (by decide)
    (by decide) 97).2

/-- C15 as stated fails where the arithmetic wraps around.  For the request
`{0, MaxInt64}` with 2 workers the second sub-range is `{-2^62, MaxInt64}`, so
the integer `-1` is assigned to a worker although it lies outside the claimed
interval `[0, 0 + 2 * floor(2^63 / 2) - 1]`.  For the request
`{MinInt64, MinInt64}` with 2 workers both sub-ranges are
`{MinInt64, MaxInt64}`, so 0 is assigned to a worker although the claimed
interval `[MinInt64, MinInt64 + 2 * floor(1 / 2) - 1]` is empty. -/
theorem subranges_union_wraps :
    (((0 : Int) ≤ MaxInt64 ∧ (1 : Int) ≤ 2) ∧
      Covered ⟨0, MaxInt64⟩ 2 (-1) ∧
      ¬ ((0 : Int) ≤ -1 ∧ (-1 : Int) ≤ 0 + 2 * ((MaxInt64 - 0 + 1) / 2) - 1)) ∧
    (Covered ⟨MinInt64, MinInt64⟩ 2 0 ∧
      ¬ (MinInt64 ≤ 0 ∧ (0 : Int) ≤ MinInt64 + 2 * ((MinInt64 - MinInt64 + 1) / 2) - 1)) :=
  ⟨⟨by decide, ⟨1, by decide, ⟨-4611686018427387904, MaxInt64⟩, by decide, by decide⟩,
      by decide⟩,
    ⟨0, by decide, ⟨MinInt64, MaxInt64⟩, by decide, by decide⟩, by decide⟩

/-- C15, amended: for every `start ≤ end` and `k ≥ 1` for which no operation of
the partitioning wraps around (`NoOverflow`), with `S = end - start + 1`, the
integers assigned to a worker are exactly those of
`[start, start + k * floor(S / k) - 1]`, whose upper end is `end - S mod k`; the
integers of `[start, end]` assigned to no worker are exactly the last `S mod k`
ones, `(end - S mod k, end]`; and nothing is dropped if and only if `k`
divides `S`. -/
theorem subranges_union_truncated (start end_ k : Int) (hse : start ≤ end_) (hk : 1 ≤ k)
    (hno : NoOverflow ⟨start, end_⟩ k) :
    (∀ x : Int, Covered ⟨start, end_⟩ k x ↔
      start ≤ x ∧ x ≤ start + k * ((end_ - start + 1) / k) - 1) ∧
    start + k * ((end_ - start + 1) / k) - 1 = end_ - (end_ - start + 1) % k ∧
    (∀ x : Int, (start ≤ x ∧ x ≤ end_ ∧ ¬ Covered ⟨start, end_⟩ k x) ↔
      end_ - (end_ - start + 1) % k < x ∧ x ≤ end_) ∧
    ((Finset.Icc (end_ - (end_ - start + 1) % k + 1) end_).card : Int) =
      (end_ - start + 1) % k ∧
    ((∀ x : Int, start ≤ x → x ≤ end_ → Covered ⟨start, end_⟩ k x) ↔
      k ∣ (end_ - start + 1)) := by
  have hS : 0 ≤ (CalculatePrimes.mk start end_).RangeEnd -
      (CalculatePrimes.mk start end_).RangeStart + 1 := by
    simp only
    omega
  have hcov : ∀ x : Int, Covered ⟨start, end_⟩ k x ↔
      start ≤ x ∧ x ≤ start + k * ((end_ - start + 1) / k) - 1 :=
    fun x => covered_iff ⟨start, end_⟩ k x hS hk hno
  have hdecomp := Int.ediv_add_emod (end_ - start + 1) k
  have hr0 := Int.emod_nonneg (end_ - start + 1) (by omega : k ≠ 0)
  have hr1 := Int.emod_lt_of_pos (end_ - start + 1) (by omega : 0 < k)
  refine ⟨hcov, ?_⟩
  rw [Int.dvd_iff_emod_eq_zero]
  simp only [hcov]
  have hkq : 0 ≤ k * ((end_ - start + 1) / k) :=
    mul_nonneg (by omega) (size_nonneg _ k (by omega) hk)
  generalize k * ((end_ - start + 1) / k) = kq at hdecomp hkq ⊢
  generalize (end_ - start + 1) % k = r at hdecomp hr0 hr1 ⊢
  refine ⟨by omega, ?_, ?_, ?_⟩
  · intro x
    constructor
    · rintro ⟨h1, h2, h3⟩
      constructor <;> omega
    · rintro ⟨h1, h2⟩
      refine ⟨by omega, h2, ?_⟩
      omega
  · rw [Int.card_Icc]
    omega
  · constructor
    · intro hall
      have := hall end_ hse le_rfl
      omega
    · intro hr x h1 h2
      constructor <;> omega

/-- The hypotheses of the amended C15 hold for the request `{0, 100}` with 5
workers: the integers assigned to a worker are those of `[0, 99]`, so 100 is
assigned to none. -/
theorem subranges_union_truncated_witness :
    (Covered ⟨0, 100⟩ 5 100 ↔ (0 : Int) ≤ 100 ∧ (100 : Int) ≤ 0 + 5 * ((100 - 0 + 1) / 5) - 1) ∧
    (0 : Int) + 5 * ((100 - 0 + 1) / 5) - 1 = 100 - (100 - 0 + 1) % 5 :=
  have h := subranges_union_truncated 0 100 5 (by decide) (by decide) (by decide)
  ⟨h.1 100, h.2.1⟩

/-- C20 as stated fails where the arithmetic wraps around: for the request
`{MinInt64, MinInt64}` with 2 workers (more workers than the one integer of the
range) the size is 0, but `start - 1` wraps to `MaxInt64`: every worker gets
`{MinInt64, MaxInt64}`, which is not empty, and never returns. -/
theorem minInt_subrange_not_empty :
    (MinInt64 ≤ MinInt64 ∧ MinInt64 - MinInt64 + 1 < 2) ∧
    workerRange ⟨MinInt64, MinInt64⟩ 2 ((0 : Nat) : Int) = some ⟨MinInt64, MaxInt64⟩ ∧
    workerRange ⟨MinInt64, MinInt64⟩ 2 ((1 : Nat) : Int) = some ⟨MinInt64, MaxInt64⟩ ∧
    MaxInt64 ≠ MinInt64 - 1 ∧
    (CalculatePrimes.mk MinInt64 MaxInt64).Contains 2 ∧
    findPrimesInRange MinInt64 MaxInt64 = none :=
  ⟨by decide, by decide, by decide, by decide, by decide,
    (findPrimesInRange_eq_none _ _ le_rfl (by decide)).1⟩

/-- C20, amended: for every `start ≤ end`, without wrap-around in the
partitioning (`NoOverflow`, which here says that `start` is not `MinInt64`),
and every `k` larger than the number of integers of the range, the sub-range
size is 0, the sub-range of every worker index below `k` is the empty
`[start, start - 1]`, and the worker handling it returns and sends the empty
sequence. -/
theorem more_workers_than_integers (start end_ k : Int) (hse : start ≤ end_)
    (hk : end_ - start + 1 < k) (hno : NoOverflow ⟨start, end_⟩ k) :
    goDiv (wrap (wrap (end_ - start) + 1)) k = some 0 ∧
    (∀ i : Nat, (i : Int) < k → workerRange ⟨start, end_⟩ k i = some ⟨start, start - 1⟩) ∧
    findPrimesInRange start (start - 1) = some [] ∧
    sentResults (Worker.HandleMessage false Worker.zero
      (.CalculatePrimes ⟨start, start - 1⟩)).effects = [⟨[]⟩] := by
  have hdiv : (end_ - start + 1).tdiv k = 0 := Int.tdiv_eq_zero_of_lt (by omega) hk
  have hempty : findPrimesInRange start (start - 1) = some [] :=
    findPrimesInRange_of_lt _ _ (by omega)
  have hSw : wrap (wrap (end_ - start) + 1) = end_ - start + 1 := by
    obtain ⟨_, _, hS, _⟩ := hno
    simp only [IsInt64, MinInt64, MaxInt64] at hS
    simp only [wrap]
    omega
  refine ⟨?_, ?_, hempty, worker_sentResults _ _ ⟨start, start - 1⟩ _ hempty⟩
  · rw [hSw]
    simp only [goDiv, hdiv, if_neg (by omega : ¬ k = 0)]
    rfl
  · intro i hi
    rw [workerRange_exact _ k i (by omega) hi hno]
    simp [hdiv]

/-- The hypotheses of the amended C20 hold for the request `{2, 4}` with 5
workers: the range contains the primes 2 and 3, every dispatched sub-range is
`[2, 1]` and every worker's result is empty. -/
theorem more_workers_than_integers_witness :
    (isPrime 2 = true ∧ isPrime 3 = true) ∧
    (∀ i : Nat, (i : Int) < 5 → workerRange ⟨2, 4⟩ 5 i = some ⟨2, 1⟩) ∧
    workerResults ((sentTasks (TaskDispatcher.HandleMessage reliableRuntime ⟨5⟩
        (.CalculatePrimes ⟨2, 4⟩)).effects).map Prod.snd) =
      [⟨[]⟩, ⟨[]⟩, ⟨[]⟩, ⟨[]⟩, ⟨[]⟩] :=
  ⟨by decide, (more_workers_than_integers 2 4 5 (by decide) (by decide) (by decide)).2.1,
    by decide⟩

/-! ## The dispatcher: failures of the runtime, division by zero -/

/-- A failed spawn ends the loop: the iteration logs the fatal error, the
process exits and the remaining indices are not visited. -/
theorem dispatchLoop_spawn_failure (rt : Runtime) (td : TaskDispatcher) (msg : CalculatePrimes)
    (hk : td.numberOfWorkers ≠ 0) (i : Nat) (rest : List Nat) (effects : List Effect)
    (hfail : rt.spawn i = none) :
    dispatchLoop rt td msg (i :: rest) effects = (effects ++ [Effect.logFatal], Return.exited) := by
  obtain ⟨r, hr⟩ := workerRange_isSome_of_ne_zero msg td.numberOfWorkers i hk
  simp only [dispatchLoop, hr, hfail]

/-- The loop never takes the division-by-zero exit when the divisor is not
zero. -/
theorem dispatchLoop_ne_panicked (rt : Runtime) (td : TaskDispatcher) (msg : CalculatePrimes)
    (hk : td.numberOfWorkers ≠ 0) :
    ∀ (indices : List Nat) (effects : List Effect),
      (dispatchLoop rt td msg indices effects).2 ≠ Return.panicked := by
  intro indices
  induction indices with
  | nil => intro effects h; cases h
  | cons i rest ih =>
    intro effects
    obtain ⟨r, hr⟩ := workerRange_isSome_of_ne_zero msg td.numberOfWorkers i hk
    simp only [dispatchLoop, hr]
    cases rt.spawn i with
    | none => intro h; cases h
    | some pid => exact ih _

/-- The loop never reads the results of `Send`: two runtimes with the same
spawn results give the same run. -/
theorem dispatchLoop_sendFails_irrelevant (spawn : Nat → Option PID) (f g : Nat → Bool)
    (td : TaskDispatcher) (msg : CalculatePrimes) :
    ∀ (indices : List Nat) (effects : List Effect),
      dispatchLoop ⟨spawn, f⟩ td msg indices effects =
        dispatchLoop ⟨spawn, g⟩ td msg indices effects := by
  intro indices
  induction indices with
  | nil => intro effects; rfl
  | cons i rest ih =>
    intro effects
    simp only [dispatchLoop]
    cases workerRange msg td.numberOfWorkers i with
    | none => rfl
    | some task =>
      cases spawn i with
      | none => rfl
      | some pid => exact ih _

/-- C14, evaluated on a runtime whose every `Send` fails: the handler's run
does not depend on the results of `Send` at all; for the request `{0, 100}`
with 5 workers and every `Send` returning an error, the handler still returns
`nil` without a fatal log after spawning 5 workers and sending all 5 tasks. -/
theorem dispatcher_ignores_send_failure :
    (∀ (spawn : Nat → Option PID) (f g : Nat → Bool) (td : TaskDispatcher)
        (msg : CalculatePrimes),
      (TaskDispatcher.HandleMessage ⟨spawn, f⟩ td (.CalculatePrimes msg)).effects =
          (TaskDispatcher.HandleMessage ⟨spawn, g⟩ td (.CalculatePrimes msg)).effects ∧
      (TaskDispatcher.HandleMessage ⟨spawn, f⟩ td (.CalculatePrimes msg)).ret =
          (TaskDispatcher.HandleMessage ⟨spawn, g⟩ td (.CalculatePrimes msg)).ret) ∧
    failingSendRuntime.sendFails 0 = true ∧
    (TaskDispatcher.HandleMessage failingSendRuntime ⟨5⟩ (.CalculatePrimes ⟨0, 100⟩)).ret =
      Return.nil ∧
    Effect.logFatal ∉
      (TaskDispatcher.HandleMessage failingSendRuntime ⟨5⟩ (.CalculatePrimes ⟨0, 100⟩)).effects ∧
    spawnedPids (TaskDispatcher.HandleMessage failingSendRuntime ⟨5⟩
        (.CalculatePrimes ⟨0, 100⟩)).effects = [0, 1, 2, 3, 4] ∧
    (sentTasks (TaskDispatcher.HandleMessage failingSendRuntime ⟨5⟩
        (.CalculatePrimes ⟨0, 100⟩)).effects).map Prod.snd =
      [⟨0, 19⟩, ⟨20, 39⟩, ⟨40, 59⟩, ⟨60, 79⟩, ⟨80, 99⟩] := by
  refine ⟨?_, by decide, by decide, by decide, by decide, by decide⟩
  intro spawn f g td msg
  simp only [TaskDispatcher.HandleMessage, dispatchLoop_sendFails_irrelevant spawn f g td msg]
  exact ⟨trivial, trivial⟩

/-- C18: for every request, a dispatcher configured with a number of workers
that is zero or negative runs the loop zero times (no spawn, no send, the
handler returns `nil`); and for every number of workers the handler never ends
in the division-by-zero panic, since each iteration that evaluates the division
has a divisor of at least 1. -/
theorem dispatcher_never_divides_by_zero (rt : Runtime) (td : TaskDispatcher)
    (msg : CalculatePrimes) :
    (td.numberOfWorkers ≤ 0 →
      (td.HandleMessage rt (.CalculatePrimes msg)).effects = [] ∧
      (td.HandleMessage rt (.CalculatePrimes msg)).ret = Return.nil) ∧
    (td.HandleMessage rt (.CalculatePrimes msg)).ret ≠ Return.panicked ∧
    (∀ i ∈ List.range td.numberOfWorkers.toNat,
      1 ≤ td.numberOfWorkers ∧ (workerRange msg td.numberOfWorkers i).isSome = true) := by
  refine ⟨?_, ?_, ?_⟩
  · intro h
    have : td.numberOfWorkers.toNat = 0 := by omega
    simp [TaskDispatcher.HandleMessage, this, dispatchLoop]
  · by_cases h : td.numberOfWorkers ≤ 0
    · have : td.numberOfWorkers.toNat = 0 := by omega
      simp [TaskDispatcher.HandleMessage, this, dispatchLoop]
    · exact dispatchLoop_ne_panicked rt td msg (by omega) _ _
  · intro i hi
    have hi2 := List.mem_range.mp hi
    have hk : 1 ≤ td.numberOfWorkers := by omega
    obtain ⟨r, hr⟩ := workerRange_isSome_of_ne_zero msg td.numberOfWorkers i (by omega)
    rw [hr]
    exact ⟨hk, rfl⟩

/-- C18 at a dispatcher with zero workers and one with a negative number of
workers: nothing is dispatched and the handler returns `nil`. -/
theorem dispatcher_never_divides_by_zero_witness :
    (TaskDispatcher.HandleMessage reliableRuntime ⟨0⟩ (.CalculatePrimes ⟨0, 100⟩)).effects = [] ∧
    (TaskDispatcher.HandleMessage reliableRuntime ⟨-3⟩ (.CalculatePrimes ⟨0, 100⟩)).ret =
      Return.nil :=
  ⟨((dispatcher_never_divides_by_zero reliableRuntime ⟨0⟩ ⟨0, 100⟩).1 (by decide)).1,
   ((dispatcher_never_divides_by_zero reliableRuntime ⟨-3⟩ ⟨0, 100⟩).1 (by decide)).2⟩

/-! ## The collector -/

theorem collector_handle_primesFound (rc : ResultsCollector) (m : PrimesFound) :
    (rc.HandleMessage (.PrimesFound m)).state =
        ⟨rc.expectedNumberOfResults, rc.numberOfResults + 1, rc.results ++ m.Primes⟩ ∧
    (rc.HandleMessage (.PrimesFound m)).effects =
        (if rc.numberOfResults + 1 = rc.expectedNumberOfResults
          then [Effect.printed m.Primes] else []) ∧
    (rc.HandleMessage (.PrimesFound m)).ret = Return.nil := by
  simp only [ResultsCollector.HandleMessage]
  split_ifs <;> simp

theorem collector_after_primesFound (ms : List PrimesFound) : ∀ rc : ResultsCollector,
    rc.after (ms.map Any.PrimesFound) =
      ⟨rc.expectedNumberOfResults, rc.numberOfResults + ms.length,
        rc.results ++ (ms.map fun m => m.Primes).flatten⟩ := by
  induction ms with
  | nil => intro rc; simp [ResultsCollector.after]
  | cons m ms ih =>
    intro rc
    simp only [List.map_cons, ResultsCollector.after, ih, (collector_handle_primesFound rc m).1,
      List.length_cons, List.flatten_cons, List.append_assoc, Nat.cast_add, Nat.cast_one]
    congr 1
    ring

theorem collector_trace_primesFound (ms : List PrimesFound) : ∀ (rc : ResultsCollector) (i : Nat),
    (rc.trace (ms.map Any.PrimesFound))[i]? =
      ms[i]?.map fun m =>
        if rc.numberOfResults + (i : Int) + 1 = rc.expectedNumberOfResults
          then [Effect.printed m.Primes] else [] := by
  induction ms with
  | nil => intro rc i; simp [ResultsCollector.trace]
  | cons m ms ih =>
    intro rc i
    cases i with
    | zero =>
      simp [ResultsCollector.trace, (collector_handle_primesFound rc m).2.1]
    | succ i =>
      simp only [List.map_cons, ResultsCollector.trace, List.getElem?_cons_succ, ih,
        (collector_handle_primesFound rc m).1, Nat.cast_add, Nat.cast_one]
      congr
      funext x
      congr 1
      apply propext
      constructor <;> intro h <;> omega

theorem completions_cons (effects : List Effect) (rest : List (List Effect)) :
    completions (effects :: rest) =
      (if effects.any Effect.isReport = true then 1 else 0) + completions rest := by
  simp only [completions, List.filter_cons]
  split_ifs <;> simp [Nat.add_comm]

theorem collector_completions_primesFound (ms : List PrimesFound) : ∀ rc : ResultsCollector,
    completions (rc.trace (ms.map Any.PrimesFound)) =
      if rc.numberOfResults < rc.expectedNumberOfResults ∧
          rc.expectedNumberOfResults ≤ rc.numberOfResults + ms.length then 1 else 0 := by
  induction ms with
  | nil =>
    intro rc
    have : ¬ (rc.numberOfResults < rc.expectedNumberOfResults ∧
        rc.expectedNumberOfResults ≤ rc.numberOfResults + ([] : List PrimesFound).length) := by
      simp only [List.length_nil, Nat.cast_zero]
      omega
    rw [if_neg this]
    rfl
  | cons m ms ih =>
    intro rc
    obtain ⟨hstate, heffects, _⟩ := collector_handle_primesFound rc m
    simp only [List.map_cons, ResultsCollector.trace, completions_cons, ih, hstate, heffects,
      List.length_cons, Nat.cast_add, Nat.cast_one]
    by_cases hc : rc.numberOfResults + 1 = rc.expectedNumberOfResults
    · have h1 : ¬ (rc.numberOfResults + 1 < rc.expectedNumberOfResults ∧
          rc.expectedNumberOfResults ≤ rc.numberOfResults + 1 + ms.length) := by omega
      have h2 : rc.numberOfResults < rc.expectedNumberOfResults ∧
          rc.expectedNumberOfResults ≤ rc.numberOfResults + ((ms.length : Int) + 1) := by omega
      rw [if_pos hc, if_neg h1, if_pos h2]
      simp [Effect.isReport]
    · rw [if_neg hc]
      simp only [List.any_nil, Bool.false_eq_true, if_false, Nat.zero_add]
      by_cases h2 : rc.numberOfResults + 1 < rc.expectedNumberOfResults ∧
          rc.expectedNumberOfResults ≤ rc.numberOfResults + 1 + ms.length
      · have h3 : rc.numberOfResults < rc.expectedNumberOfResults ∧
            rc.expectedNumberOfResults ≤ rc.numberOfResults + ((ms.length : Int) + 1) := by omega
        rw [if_pos h2, if_pos h3]
      · have h3 : ¬ (rc.numberOfResults < rc.expectedNumberOfResults ∧
            rc.expectedNumberOfResults ≤ rc.numberOfResults + ((ms.length : Int) + 1)) := by omega
        rw [if_neg h2, if_neg h3]

theorem collector_init_int (e : Int) :
    ResultsCollector.zero.Init [.int e] = some ⟨e, 0, []⟩ := rfl

/-- C8: for every expected count `e ≥ 1` and every sequence of `PrimesFound`
messages handled by a freshly initialised collector, the handling of the
message at position `i` (counted from 0) emits the completion report, with that
message's primes, when `i + 1 = e`, and emits nothing otherwise; so a run of at
least `e` messages contains exactly one completion report and a shorter run
contains none. -/
theorem collector_completes_exactly_at_expected (e : Int) (he : 1 ≤ e)
    (ms : List PrimesFound) (rc0 : ResultsCollector)
    (hinit : ResultsCollector.zero.Init [.int e] = some rc0) :
    (∀ (i : Nat) (m : PrimesFound), ms[i]? = some m →
      (rc0.trace (ms.map Any.PrimesFound))[i]? =
        some (if (i : Int) + 1 = e then [Effect.printed m.Primes] else [])) ∧
    (e ≤ ms.length → completions (rc0.trace (ms.map Any.PrimesFound)) = 1) ∧
    ((ms.length : Int) < e → completions (rc0.trace (ms.map Any.PrimesFound)) = 0) := by
  rw [collector_init_int] at hinit
  cases Option.some.inj hinit
  refine ⟨?_, ?_, ?_⟩
  · intro i m hm
    rw [collector_trace_primesFound, hm]
    simp
  · intro hlen
    rw [collector_completions_primesFound, if_pos]
    simp only [zero_add]
    omega
  · intro hlen
    rw [collector_completions_primesFound, if_neg]
    simp only [zero_add]
    omega

/-- The hypotheses of C8 hold for an expected count of 2 and three results. -/
theorem collector_completes_exactly_at_expected_witness :
    (ResultsCollector.mk 2 0 []).trace
        ([⟨[2, 3]⟩, ⟨[]⟩, ⟨[5]⟩].map Any.PrimesFound) = [[], [Effect.printed []], []] ∧
    completions ((ResultsCollector.mk 2 0 []).trace
        ([⟨[2, 3]⟩, ⟨[]⟩, ⟨[5]⟩].map Any.PrimesFound)) = 1 :=
  ⟨by decide,
    (collector_completes_exactly_at_expected 2 (by decide) [⟨[2, 3]⟩, ⟨[]⟩, ⟨[5]⟩]
      ⟨2, 0, []⟩ rfl).2.1 (by decide)⟩

theorem collector_after_count (msgs : List Any) : ∀ rc : ResultsCollector,
    (rc.after msgs).expectedNumberOfResults = rc.expectedNumberOfResults ∧
    (rc.after msgs).numberOfResults = rc.numberOfResults + resultCount msgs := by
  induction msgs with
  | nil => intro rc; simp [ResultsCollector.after, resultCount]
  | cons m msgs ih =>
    intro rc
    obtain ⟨h1, h2⟩ := ih (rc.HandleMessage m).state
    simp only [ResultsCollector.after, h1, h2]
    cases m with
    | PrimesFound v =>
      simp only [(collector_handle_primesFound rc v).1, resultCount, List.filter_cons,
        if_true, List.length_cons, Nat.cast_add, Nat.cast_one, true_and]
      ring
    | int v => simp [ResultsCollector.HandleMessage, resultCount]
    | CalculatePrimes v => simp [ResultsCollector.HandleMessage, resultCount]
    | other tag => simp [ResultsCollector.HandleMessage, resultCount]

/-- C9 as stated fails: a collector initialised with an expected count of 1
that handles two `PrimesFound` messages ends with a received count of 2. -/
theorem collector_count_exceeds_expected :
    ResultsCollector.zero.Init [.int 1] = some ⟨1, 0, []⟩ ∧
    ¬ ((ResultsCollector.mk 1 0 []).after
          [.PrimesFound ⟨[2]⟩, .PrimesFound ⟨[3]⟩]).numberOfResults ≤
        ((ResultsCollector.mk 1 0 []).after
          [.PrimesFound ⟨[2]⟩, .PrimesFound ⟨[3]⟩]).expectedNumberOfResults := by
  decide

/-- C9, amended: in every state the collector reaches from its initial state
(expected count `e`, received count 0) by handling a sequence of messages of
which at most `e` are `PrimesFound` messages, the received count is at most the
expected count; the received count is the number of `PrimesFound` messages
handled and the expected count stays `e`. -/
theorem collector_count_le_expected (e : Int) (msgs : List Any) (rc0 : ResultsCollector)
    (hinit : ResultsCollector.zero.Init [.int e] = some rc0)
    (hcount : (resultCount msgs : Int) ≤ e) :
    (rc0.after msgs).numberOfResults ≤ (rc0.after msgs).expectedNumberOfResults ∧
    (rc0.after msgs).numberOfResults = resultCount msgs ∧
    (rc0.after msgs).expectedNumberOfResults = e := by
  rw [collector_init_int] at hinit
  cases Option.some.inj hinit
  obtain ⟨h1, h2⟩ := collector_after_count msgs ⟨e, 0, []⟩
  simp only [zero_add] at h2
  rw [h1, h2]
  exact ⟨hcount, rfl, rfl⟩

/-- The hypotheses of the amended C9 hold for an expected count of 2 and a
sequence with two results and one unknown message. -/
theorem collector_count_le_expected_witness :
    ((ResultsCollector.mk 2 0 []).after
        [.PrimesFound ⟨[2]⟩, .other 0, .PrimesFound ⟨[3]⟩]).numberOfResults ≤
      ((ResultsCollector.mk 2 0 []).after
        [.PrimesFound ⟨[2]⟩, .other 0, .PrimesFound ⟨[3]⟩]).expectedNumberOfResults :=
  (collector_count_le_expected 2 [.PrimesFound ⟨[2]⟩, .other 0, .PrimesFound ⟨[3]⟩]
    ⟨2, 0, []⟩ rfl (by decide)).1

/-- C10: when the received count of a freshly initialised collector reaches the
expected count `e` (on the message `last`, after the `e - 1` messages
`earlier`), the report carries exactly the primes of `last`, while the
accumulated sequence is the concatenation of all `e` results; the two differ
exactly when some earlier result was not empty. -/
theorem collector_reports_last_result_only (e : Int) (earlier : List PrimesFound)
    (last : PrimesFound) (rc0 : ResultsCollector)
    (hinit : ResultsCollector.zero.Init [.int e] = some rc0)
    (he : e = (earlier.length : Int) + 1) :
    ((rc0.after (earlier.map Any.PrimesFound)).HandleMessage (.PrimesFound last)).effects =
      [Effect.printed last.Primes] ∧
    ((rc0.after (earlier.map Any.PrimesFound)).HandleMessage
        (.PrimesFound last)).state.numberOfResults = e ∧
    ((rc0.after (earlier.map Any.PrimesFound)).HandleMessage (.PrimesFound last)).state.results =
      (earlier.map fun m => m.Primes).flatten ++ last.Primes ∧
    (((rc0.after (earlier.map Any.PrimesFound)).HandleMessage
        (.PrimesFound last)).state.results ≠ last.Primes ↔
      ∃ m ∈ earlier, m.Primes ≠ []) := by
  rw [collector_init_int] at hinit
  cases Option.some.inj hinit
  obtain ⟨hstate, heffects, _⟩ :=
    collector_handle_primesFound ((ResultsCollector.mk e 0 []).after
      (earlier.map Any.PrimesFound)) last
  rw [hstate, heffects, collector_after_primesFound]
  simp only [zero_add, List.nil_append]
  refine ⟨if_pos he.symm, he.symm, trivial, ?_⟩
  rw [Ne, List.append_left_eq_self, List.flatten_eq_nil_iff]
  simp only [List.mem_map, forall_exists_index, and_imp, forall_apply_eq_imp_iff₂, not_forall]
  constructor
  · rintro ⟨m, hm, hne⟩
    exact ⟨m, hm, hne⟩
  · rintro ⟨m, hm, hne⟩
    exact ⟨m, hm, hne⟩

/-- The hypotheses of C10 hold for an expected count of 2: the report is the
second result although the first one was not empty. -/
theorem collector_reports_last_result_only_witness :
    (((ResultsCollector.mk 2 0 []).after ([⟨[2, 3]⟩].map Any.PrimesFound)).HandleMessage
        (.PrimesFound ⟨[5]⟩)).effects = [Effect.printed [5]] ∧
    (((ResultsCollector.mk 2 0 []).after ([⟨[2, 3]⟩].map Any.PrimesFound)).HandleMessage
        (.PrimesFound ⟨[5]⟩)).state.results = [2, 3, 5] :=
  have h := collector_reports_last_result_only 2 [⟨[2, 3]⟩] ⟨[5]⟩ ⟨2, 0, []⟩ rfl (by decide)
  ⟨h.1, h.2.2.1⟩

/-! ## The run of `main` -/

theorem dispatcher_init_int (n : Int) :
    TaskDispatcher.zero.Init [.int n] = some ⟨n⟩ := rfl

/-- The tasks `main` makes the dispatcher send: the request `{0, 100}` split
for 5 workers, when every spawn succeeds. -/
theorem main_tasks (rt : Runtime) (hspawn : ∀ i : Nat, i < 5 → (rt.spawn i).isSome = true) :
    (sentTasks (TaskDispatcher.HandleMessage rt ⟨5⟩
        (.CalculatePrimes ⟨0, 100⟩)).effects).map Prod.snd =
      [⟨0, 19⟩, ⟨20, 39⟩, ⟨40, 59⟩, ⟨60, 79⟩, ⟨80, 99⟩] := by
  have hloop := dispatchLoop_of_spawns rt ⟨5⟩ ⟨0, 100⟩
    (fun i => ⟨20 * (i : Int), 20 * (i : Int) + 19⟩)
    (List.range 5) [] (by decide) (fun i hi => hspawn i (List.mem_range.mp hi))
  have h5 : (5 : Int).toNat = 5 := rfl
  simp only [TaskDispatcher.HandleMessage, h5, hloop, List.nil_append, sentTasks_flatMap,
    List.map_map, Function.comp_def]
  decide

theorem main_results :
    workerResults [⟨0, 19⟩, ⟨20, 39⟩, ⟨40, 59⟩, ⟨60, 79⟩, ⟨80, 99⟩] =
      [⟨[2, 3, 5, 7, 11, 13, 17, 19]⟩, ⟨[23, 29, 31, 37]⟩, ⟨[41, 43, 47, 53, 59]⟩,
       ⟨[61, 67, 71, 73, 79]⟩, ⟨[83, 89, 97]⟩] := by
  decide

/-- C7: in the run of `main` (dispatcher and collector initialised with 5, the
request `{0, 100}`), when every spawn succeeds and every message is delivered,
the five workers produce exactly 5 results; in whatever order they arrive, the
collector emits no report for the first four and emits its completion report
on the fifth, and the sequence it has accumulated then holds 25 primes. -/
theorem main_run_completes_with_25_primes (rt : Runtime)
    (hspawn : ∀ i : Nat, i < 5 → (rt.spawn i).isSome = true)
    (td : TaskDispatcher) (rc : ResultsCollector)
    (htd : TaskDispatcher.zero.Init [.int 5] = some td)
    (hrc : ResultsCollector.zero.Init [.int 5] = some rc)
    (arrival : List PrimesFound)
    (harrival : arrival.Perm (workerResults
      ((sentTasks (td.HandleMessage rt (.CalculatePrimes ⟨0, 100⟩)).effects).map Prod.snd))) :
    (workerResults
      ((sentTasks (td.HandleMessage rt (.CalculatePrimes ⟨0, 100⟩)).effects).map
        Prod.snd)).length = 5 ∧
    (∃ last, arrival[4]? = some last ∧
      rc.trace (arrival.map Any.PrimesFound) = [[], [], [], [], [Effect.printed last.Primes]]) ∧
    (rc.after (arrival.map Any.PrimesFound)).numberOfResults = 5 ∧
    (rc.after (arrival.map Any.PrimesFound)).results.length = 25 := by
  rw [dispatcher_init_int] at htd
  cases Option.some.inj htd
  rw [collector_init_int] at hrc
  cases Option.some.inj hrc
  rw [main_tasks rt hspawn, main_results] at harrival ⊢
  refine ⟨rfl, ?_, ?_, ?_⟩
  · have hlen := harrival.length_eq
    match arrival, hlen with
    | [a, b, c, d, last], _ =>
      refine ⟨last, rfl, ?_⟩
      simp [ResultsCollector.trace, ResultsCollector.HandleMessage]
  · rw [collector_after_primesFound]
    simp [harrival.length_eq]
  · rw [collector_after_primesFound]
    simp only [List.nil_append, List.length_flatten, List.map_map]
    rw [(harrival.map _).sum_eq]
    rfl

/-- The hypotheses of C7 hold for the runtime that numbers the spawned
processes and the results arriving in the order of the workers. -/
theorem main_run_completes_with_25_primes_witness :
    ((ResultsCollector.mk 5 0 []).after
      ((workerResults ((sentTasks (TaskDispatcher.HandleMessage reliableRuntime ⟨5⟩
        (.CalculatePrimes ⟨0, 100⟩)).effects).map Prod.snd)).map
          Any.PrimesFound)).results.length = 25 :=
  (main_run_completes_with_25_primes reliableRuntime (fun _ _ => rfl) ⟨5⟩ ⟨5, 0, []⟩ rfl rfl
    _ (List.Perm.refl _)).2.2.2

/-! ## The collector: accumulation, arrival order, unknown messages -/

/-- C11: for every sequence of `PrimesFound` messages handled by a freshly
initialised collector (whatever the arguments of `Init`), the resulting state
has a received count equal to the number of messages, an accumulated sequence
equal to the concatenation of the messages' primes in arrival order, and an
unchanged expected count; each single message appends its primes and increments
the received count by exactly one. -/
theorem collector_accumulates_in_arrival_order (args : List Any) (rc0 : ResultsCollector)
    (hinit : ResultsCollector.zero.Init args = some rc0) (ms : List PrimesFound) :
    (rc0.after (ms.map Any.PrimesFound)).numberOfResults = ms.length ∧
    (rc0.after (ms.map Any.PrimesFound)).results = (ms.map fun m => m.Primes).flatten ∧
    (rc0.after (ms.map Any.PrimesFound)).expectedNumberOfResults =
      rc0.expectedNumberOfResults ∧
    ∀ (rc : ResultsCollector) (m : PrimesFound),
      (rc.HandleMessage (.PrimesFound m)).state.results = rc.results ++ m.Primes ∧
      (rc.HandleMessage (.PrimesFound m)).state.numberOfResults = rc.numberOfResults + 1 ∧
      (rc.HandleMessage (.PrimesFound m)).state.expectedNumberOfResults =
        rc.expectedNumberOfResults := by
  have hfresh : rc0.numberOfResults = 0 ∧ rc0.results = [] := by
    unfold ResultsCollector.Init at hinit
    split at hinit
    · cases Option.some.inj hinit
      exact ⟨rfl, rfl⟩
    · cases Option.some.inj hinit
      exact ⟨rfl, rfl⟩
    · cases hinit
  rw [collector_after_primesFound]
  simp only [hfresh.1, hfresh.2, zero_add, List.nil_append, true_and]
  intro rc m
  rw [(collector_handle_primesFound rc m).1]
  exact ⟨rfl, rfl, rfl⟩

/-- The hypothesis of C11 holds for `Init` without arguments and three results. -/
theorem collector_accumulates_in_arrival_order_witness :
    ((ResultsCollector.mk 4 0 []).after
        ([⟨[2, 3]⟩, ⟨[]⟩, ⟨[5]⟩].map Any.PrimesFound)).numberOfResults = 3 ∧
    ((ResultsCollector.mk 4 0 []).after
        ([⟨[2, 3]⟩, ⟨[]⟩, ⟨[5]⟩].map Any.PrimesFound)).results = [2, 3, 5] :=
  have h := collector_accumulates_in_arrival_order [] ⟨4, 0, []⟩ rfl [⟨[2, 3]⟩, ⟨[]⟩, ⟨[5]⟩]
  ⟨h.1, h.2.1⟩

/-- Whether the handling of the message at position `i` emits the completion
report depends only on the position, the received count and the expected
count of the starting state. -/
theorem collector_report_position (ms : List PrimesFound) (rc : ResultsCollector) (i : Nat) :
    ((rc.trace (ms.map Any.PrimesFound))[i]?.map fun effects => effects.any Effect.isReport) =
      if i < ms.length then
        some (decide (rc.numberOfResults + (i : Int) + 1 = rc.expectedNumberOfResults))
      else none := by
  rw [collector_trace_primesFound]
  by_cases hi : i < ms.length
  · rw [if_pos hi, List.getElem?_eq_getElem hi]
    simp only [Option.map_some']
    by_cases hc : rc.numberOfResults + (i : Int) + 1 = rc.expectedNumberOfResults
    · simp [hc, Effect.isReport]
    · simp [hc]
  · rw [if_neg hi, List.getElem?_eq_none (by omega)]
    rfl

/-- C12: for every list of `PrimesFound` messages and every permutation of it,
handling either from the same state yields the same received count and
accumulated sequences that are permutations of each other, and the completion
report is emitted at the same positions (so after the same number of messages
and equally often). -/
theorem collector_aggregation_order_independent (rc : ResultsCollector)
    (ms ms' : List PrimesFound) (hperm : ms.Perm ms') :
    (rc.after (ms.map Any.PrimesFound)).numberOfResults =
      (rc.after (ms'.map Any.PrimesFound)).numberOfResults ∧
    ((rc.after (ms.map Any.PrimesFound)).results).Perm
      (rc.after (ms'.map Any.PrimesFound)).results ∧
    (∀ i : Nat,
      ((rc.trace (ms.map Any.PrimesFound))[i]?.map fun effects =>
          effects.any Effect.isReport) =
        ((rc.trace (ms'.map Any.PrimesFound))[i]?.map fun effects =>
          effects.any Effect.isReport)) ∧
    completions (rc.trace (ms.map Any.PrimesFound)) =
      completions (rc.trace (ms'.map Any.PrimesFound)) := by
  have hlen := hperm.length_eq
  refine ⟨?_, ?_, ?_, ?_⟩
  · rw [collector_after_primesFound, collector_after_primesFound, hlen]
  · rw [collector_after_primesFound, collector_after_primesFound]
    exact List.Perm.append_left _ (hperm.map _).flatten
  · intro i
    rw [collector_report_position, collector_report_position, hlen]
  · rw [collector_completions_primesFound, collector_completions_primesFound, hlen]

/-- The hypothesis of C12 holds for two results arriving in either order. -/
theorem collector_aggregation_order_independent_witness :
    ((ResultsCollector.mk 2 0 []).after
        ([⟨[2, 3]⟩, ⟨[5]⟩].map Any.PrimesFound)).results.Perm
      ((ResultsCollector.mk 2 0 []).after
        ([⟨[5]⟩, ⟨[2, 3]⟩].map Any.PrimesFound)).results :=
  (collector_aggregation_order_independent ⟨2, 0, []⟩ [⟨[2, 3]⟩, ⟨[5]⟩] [⟨[5]⟩, ⟨[2, 3]⟩]
    (List.Perm.swap _ _ _)).2.1

/-- C13: for every collector state and every message that is not a
`PrimesFound`, `HandleMessage` returns `nil`, leaves the expected count, the
received count and the accumulated sequence as they were, and only logs the
message: no completion report is emitted. -/
theorem collector_ignores_unknown_message (rc : ResultsCollector) (message : Any)
    (hother : ∀ found : PrimesFound, message ≠ .PrimesFound found) :
    (rc.HandleMessage message).ret = Return.nil ∧
    (rc.HandleMessage message).state = rc ∧
    (rc.HandleMessage message).effects = [Effect.loggedUnknown message] ∧
    (rc.HandleMessage message).effects.any Effect.isReport = false := by
  cases message with
  | PrimesFound v => exact absurd rfl (hother v)
  | int v => exact ⟨rfl, rfl, rfl, rfl⟩
  | CalculatePrimes v => exact ⟨rfl, rfl, rfl, rfl⟩
  | other tag => exact ⟨rfl, rfl, rfl, rfl⟩

/-- The hypothesis of C13 holds for a `CalculatePrimes` message sent to a
collector that is one result short of completion. -/
theorem collector_ignores_unknown_message_witness :
    ((ResultsCollector.mk 2 1 [7]).HandleMessage (.CalculatePrimes ⟨0, 100⟩)).state =
      ⟨2, 1, [7]⟩ ∧
    ((ResultsCollector.mk 2 1 [7]).HandleMessage (.CalculatePrimes ⟨0, 100⟩)).ret =
      Return.nil :=
  have h := collector_ignores_unknown_message ⟨2, 1, [7]⟩ (.CalculatePrimes ⟨0, 100⟩)
    (fun _ hne => by cases hne)
  ⟨h.2.1, h.1⟩

/-! ## Initial states -/

/-- C17: after `Init` with one integer argument `n` the collector's state is
expected `n`, received count 0, nothing accumulated; after `Init` without
arguments the expected count is 4, the default the dispatcher's `Init` also
uses for its number of workers. -/
theorem collector_initial_state (n : Int) :
    ResultsCollector.zero.Init [.int n] = some ⟨n, 0, []⟩ ∧
    ResultsCollector.zero.Init [] = some ⟨4, 0, []⟩ ∧
    TaskDispatcher.zero.Init [] = some ⟨4⟩ ∧
    TaskDispatcher.zero.Init [.int n] = some ⟨n⟩ :=
  ⟨rfl, rfl, rfl, rfl⟩

end ErgDispatcher
